import Mathlib

/-!
Verification of the dynamic-decoupling-sequence core of the
`python-open-controls` repository: the `DynamicDecouplingSequence`
constructor (validation and boundary normalization), the predefined
sequence generators (Walsh, X-concatenated, XY-concatenated) and the
scheme dispatcher.

Conventions of the embedding:
* Times and angles are rationals (`ℚ`), idealizing the floating point
  arithmetic of the Python code.
* Rotation angles are represented in units of pi: the Python value
  `np.pi` is `1` here and `np.pi/2` is `1/2`.  The code never performs
  arithmetic mixing angles and times, and never branches on an angle
  value, so this rescaling is a faithful structural encoding.
* Python exceptions are modelled by `Except`: `ArgumentsValueError`
  carries its message, and out-of-range indexing of an empty numpy
  array is `indexError`.
-/

namespace OpenControls

/-! ### Definitions: shallow embedding of the source -/

/-- Failure outcomes of the Python code: the library raises
`ArgumentsValueError` with a message, and indexing an empty numpy array
raises `IndexError`. -/
inductive Err where
  | argumentsValueError (msg : String)
  | indexError
deriving DecidableEq, Repr

/-- Modelled from the spec: the constant `UPPER_BOUND_OFFSETS` is imported
from a constants module of the `dynamic_decoupling_sequences` package that
is not among the sources; the spec fixes the maximum segment/offset count
at 10000. -/
def UPPER_BOUND_OFFSETS : ℕ := 10000

/-- Result type of the constructor: the canonical sequence value object
(`DynamicDecouplingSequence` in the source). -/
structure DDSequence where
  duration : ℚ
  offsets : List ℚ
  rabi_rotations : List ℚ
  azimuthal_angles : List ℚ
  detuning_rotations : List ℚ
  pre_post_rotation : Bool
  name : Option String
deriving DecidableEq, Repr

/-- Bundle of the four parallel arrays manipulated by the constructor. -/
structure Arrays where
  offs : List ℚ
  rab : List ℚ
  azi : List ℚ
  det : List ℚ
deriving DecidableEq, Repr

/-- Front boundary normalization (source lines 131-142): given the first
offset `h0`, either prepend a zero offset together with boundary rotation
values, or (when the first offset is already 0) overwrite the first rabi
value with a quarter turn if `pre_post_rotation` is set. -/
def prependBoundary (pp : Bool) (h0 : ℚ) (A : Arrays) : Arrays :=
  if h0 ≠ 0 then
    ⟨0 :: A.offs, (if pp then 1/2 else 0) :: A.rab, 0 :: A.azi, 0 :: A.det⟩
  else if pp then
    ⟨A.offs, A.rab.set 0 (1/2), A.azi, A.det⟩
  else A

/-- Back boundary normalization (source lines 144-155): given the last
offset `L`, either append the duration together with boundary rotation
values, or (when the last offset already equals the duration) overwrite
the last rabi value with a quarter turn if `pre_post_rotation` is set. -/
def appendBoundary (pp : Bool) (du L : ℚ) (A : Arrays) : Arrays :=
  if L ≠ du then
    ⟨A.offs ++ [du], A.rab ++ [if pp then 1/2 else 0], A.azi ++ [0], A.det ++ [0]⟩
  else if pp then
    ⟨A.offs, A.rab.set (A.rab.length - 1) (1/2), A.azi, A.det⟩
  else A

/-- Defaulting of omitted arrays (source lines 99-123): omitted offsets
become the single midpoint-in-seconds value `[0.5]`, omitted rabi
rotations a full turn (`np.pi`, which is `1` in units of pi) per offset,
omitted azimuthal and detuning values zero per offset. -/
def effArrays (offsets? rabi? azimuthal? detuning? : Option (List ℚ)) : Arrays :=
  let offsets := offsets?.getD [1/2]
  ⟨offsets,
   rabi?.getD (List.replicate offsets.length 1),
   azimuthal?.getD (List.replicate offsets.length 0),
   detuning?.getD (List.replicate offsets.length 0)⟩

/-- The `DynamicDecouplingSequence` constructor (source lines 74-181):
validation, defaulting of omitted arrays, boundary normalization, and the
final length checks, in the order the Python code performs them.  The
`indexError` guards mirror the spots where the Python code indexes a numpy
array that can be empty (`offsets[0]`, `rabi_rotations[0]`,
`rabi_rotations[-1]`). -/
def newDDSequence (duration : ℚ) (offsets? rabi? azimuthal? detuning? : Option (List ℚ))
    (pre_post_rotation : Bool) (name : Option String) : Except Err DDSequence :=
  if duration ≤ 0 then
    .error (.argumentsValueError "Sequence duration must be above zero:")
  else
    let A0 := effArrays offsets? rabi? azimuthal? detuning?
    if UPPER_BOUND_OFFSETS < A0.offs.length then
      .error (.argumentsValueError "Number of offsets is above the allowed number of maximum offsets. ")
    else if A0.offs.any (fun x => decide (x < 0) || decide (duration < x)) then
      .error (.argumentsValueError "Offsets for dynamic decoupling sequence must be between 0 and sequence duration (inclusive). ")
    else
      match A0.offs.head? with
      | none => .error .indexError
      | some h0 =>
        if pre_post_rotation ∧ h0 = 0 ∧ A0.rab = [] then .error .indexError
        else
          let A1 := prependBoundary pre_post_rotation h0 A0
          match A1.offs.getLast? with
          | none => .error .indexError
          | some L =>
            if pre_post_rotation ∧ L = duration ∧ A1.rab = [] then .error .indexError
            else
              let A2 := appendBoundary pre_post_rotation duration L A1
              if A2.rab.length ≠ A2.offs.length then
                .error (.argumentsValueError "rabi rotations must have the same length as offsets. ")
              else if A2.azi.length ≠ A2.offs.length then
                .error (.argumentsValueError "azimuthal angles must have the same length as offsets. ")
              else if A2.det.length ≠ A2.offs.length then
                .error (.argumentsValueError "detuning rotations must have the same length as offsets. ")
              else .ok ⟨duration, A2.offs, A2.rab, A2.azi, A2.det, pre_post_rotation, name⟩

/-- Interior of an array: all entries except the first and the last. -/
def interior {α : Type} (l : List α) : List α := l.tail.dropLast

/-- C2 counterexample input: 10000 supplied offsets with one inversion. -/
def c2in : List ℚ := 7/10 :: 3/10 :: List.replicate 9998 (3/10)

/-- C2 counterexample rotation arrays: 10000 zeros. -/
def zeros10000 : List ℚ := List.replicate 10000 0

/-- C7 counterexample offsets: 10000 interior midpoints. -/
def c7offsets : List ℚ := List.replicate 10000 (1/2)

/-- C7 counterexample rotation arrays: 10000 zeros. -/
def c7zeros : List ℚ := List.replicate 10000 0

/-- The sequence the constructor builds from the C7 counterexample input:
its offsets array has 10002 entries. -/
def c7seq : DDSequence :=
  ⟨1, 0 :: c7offsets ++ [1], 0 :: c7zeros ++ [0], 0 :: c7zeros ++ [0],
    0 :: c7zeros ++ [0], false, none⟩

/-- Modelled from the spec: the ten scheme name constants are imported from
a constants module absent from the sources; their values are fixed by the
dispatcher docstring and the spec's list of scheme names. -/
def RAMSEY : String := "Ramsey"

/-- Modelled from the spec: see `RAMSEY`. -/
def SPIN_ECHO : String := "Spin echo"

/-- Modelled from the spec: see `RAMSEY`. -/
def CARR_PURCELL : String := "Carr-Purcell"

/-- Modelled from the spec: see `RAMSEY`. -/
def CARR_PURCELL_MEIBOOM_GILL : String := "Carr-Purcell-Meiboom-Gill"

/-- Modelled from the spec: see `RAMSEY`. -/
def UHRIG_SINGLE_AXIS : String := "Uhrig single-axis"

/-- Modelled from the spec: see `RAMSEY`. -/
def PERIODIC_SINGLE_AXIS : String := "Periodic single-axis"

/-- Modelled from the spec: see `RAMSEY`. -/
def WALSH_SINGLE_AXIS : String := "Walsh single-axis"

/-- Modelled from the spec: see `RAMSEY`. -/
def QUADRATIC : String := "Quadratic"

/-- Modelled from the spec: see `RAMSEY`. -/
def X_CONCATENATED : String := "X concatenated"

/-- Modelled from the spec: see `RAMSEY`. -/
def XY_CONCATENATED : String := "XY concatenated"

/-- The ten valid scheme names, in the order the error message joins them
(source lines 96-103). -/
def validSchemeNames : List String :=
  [RAMSEY, SPIN_ECHO, CARR_PURCELL, CARR_PURCELL_MEIBOOM_GILL,
   UHRIG_SINGLE_AXIS, PERIODIC_SINGLE_AXIS, WALSH_SINGLE_AXIS, QUADRATIC,
   X_CONCATENATED, XY_CONCATENATED]

/-- The message of the unknown-scheme error (source lines 94-104). -/
def unknownSchemeMessage : String :=
  "Unknown predefined sequence scheme. Allowed schemes are: "
    ++ String.intercalate ", " validSchemeNames ++ "."

/-- Which generator the dispatcher selects.  The generators themselves
receive the keyword arguments unchanged, so for dispatch behaviour only
the selected branch matters. -/
inductive SchemeTag where
  | ramsey | spinEcho | carrPurcell | carrPurcellMeiboomGill
  | uhrigSingleAxis | periodicSingleAxis | walshSingleAxis | quadratic
  | xConcatenated | xyConcatenated
deriving DecidableEq, Repr

/-- The dispatcher `new_predefined_dds` (source lines 38-106): the chain of
name comparisons, and the validation error listing all allowed names for
an unrecognized scheme. -/
def newPredefinedDds (scheme : String) : Except Err SchemeTag :=
  if scheme = RAMSEY then .ok .ramsey
  else if scheme = SPIN_ECHO then .ok .spinEcho
  else if scheme = CARR_PURCELL then .ok .carrPurcell
  else if scheme = CARR_PURCELL_MEIBOOM_GILL then .ok .carrPurcellMeiboomGill
  else if scheme = UHRIG_SINGLE_AXIS then .ok .uhrigSingleAxis
  else if scheme = PERIODIC_SINGLE_AXIS then .ok .periodicSingleAxis
  else if scheme = WALSH_SINGLE_AXIS then .ok .walshSingleAxis
  else if scheme = QUADRATIC then .ok .quadratic
  else if scheme = X_CONCATENATED then .ok .xConcatenated
  else if scheme = XY_CONCATENATED then .ok .xyConcatenated
  else .error (.argumentsValueError unknownSchemeMessage)

/-- Sign of `sin(π x)` for rational `x`: zero at integers, otherwise
`+1` when `⌊x⌋` is even and `-1` when `⌊x⌋` is odd.  This is the exact
value of the `np.sign(np.sin(...))` factors of the source, whose arguments
are the rationals `2^(i+1) · t` with `t` an odd multiple of `1/(2·samples)`. -/
def signSinPi (x : ℚ) : ℤ :=
  if x.den = 1 then 0 else if ⌊x⌋ % 2 = 0 then 1 else -1

/-- The Walsh sample grid of the source: `np.arange(1/(2s), 1, 1/s)`,
which contains exactly the `s` midpoints `1/(2s) + k/s`, `k = 0..s-1`. -/
def walshSampleGrid (s : ℕ) : List ℚ :=
  (List.range s).map (fun k => 1/(2*(s : ℚ)) + (k : ℚ)/(s : ℚ))

/-- The Walsh function samples and transition offsets of the source
(lines 465-483), before scaling by the duration: the binary digits of the
Paley order (most significant first), the sampled Walsh function as a
product of square-wave factors, and the relative offsets at every sign
transition between consecutive samples. -/
def walshRelativeOffsets (paley_order : ℕ) : List ℚ :=
  let h := Nat.log2 paley_order + 1
  let samples := 2 ^ h
  let rel := walshSampleGrid samples
  let bits := (List.range h).map (fun i => paley_order / 2 ^ (h - 1 - i) % 2)
  let walsh := rel.map (fun t =>
    (List.range h).foldl
      (fun acc i => acc * (signSinPi (2 ^ (i + 1) * t)) ^ (bits.getD (h - 1 - i) 0)) 1)
  (List.range (samples - 1)).filterMap (fun i =>
    if walsh.getD i 0 ≠ walsh.getD (i + 1) 0
    then some (((i : ℚ) + 1) * (1/(samples : ℚ))) else none)

/-- The Walsh single-axis generator `new_walsh_single_axis_sequence`
(source lines 424-497): duration and Paley-order validation, transition
offsets scaled by the duration, a full rabi rotation per offset, zero
azimuthal and detuning arrays, handed to the sequence constructor with
default `pre_post_rotation` and name. -/
def newWalshSingleAxisSequence (duration : ℚ) (paley_order : ℕ) :
    Except Err DDSequence :=
  if duration ≤ 0 then
    .error (.argumentsValueError "Sequence duration must be above zero:")
  else if paley_order < 1 ∨ 2000 < paley_order then
    .error (.argumentsValueError "Paley order must be between 1 and 2000.")
  else
    let offsets := (walshRelativeOffsets paley_order).map (fun x => duration * x)
    newDDSequence duration (some offsets)
      (some (List.replicate offsets.length 1))
      (some (List.replicate offsets.length 0))
      (some (List.replicate offsets.length 0)) false none

/-- The recursive pulse pattern `_concatenation_x` (source lines 867-889):
order 1 is `[1, 0, 1, 0]`, order `n` concatenates two copies of order
`n-1`, each followed by an extra `0`.  The generator only calls it with
order at least 1; order 0 is given the empty pattern. -/
def concatenationX : ℕ → List ℕ
  | 0 => []
  | 1 => [1, 0, 1, 0]
  | n + 2 => concatenationX (n + 1) ++ [0] ++ concatenationX (n + 1) ++ [0]

/-- Running cumulative sums (`np.cumsum`): entry `i` is the sum of the
first `i+1` inputs added to the accumulator. -/
def cumsumQFrom (acc : ℚ) : List ℚ → List ℚ
  | [] => []
  | x :: r => (acc + x) :: cumsumQFrom (acc + x) r

/-- Sorted distinct values of `l` whose occurrence count in `l` is even:
the `np.unique(..., return_counts=True)` call followed by the
even-count comprehension of source lines 648-650. -/
def npUniqueEvenCount (l : List ℚ) : List ℚ :=
  ((l.dedup).insertionSort (· ≤ ·)).filter (fun v => decide (l.count v % 2 = 0))

/-- Cumulative positions of the X-concatenated pattern: each pattern entry
is scaled by the unit spacing and the running sums are taken (source lines
642-646). -/
def xCumulativePositions (duration : ℚ) (n : ℕ) : List ℚ :=
  cumsumQFrom 0 ((concatenationX n).map (fun c : ℕ => (c : ℚ) * (duration / 2 ^ n)))

/-- The surviving offsets of the X-concatenated generator before the
odd-order trim (source line 650): unique cumulative positions kept when
their occurrence count is even. -/
def xSurvivingOffsets (duration : ℚ) (n : ℕ) : List ℚ :=
  npUniqueEvenCount (xCumulativePositions duration n)

/-- The offsets of the X-concatenated generator (source lines 642-655),
including the final-offset trim for odd concatenation orders. -/
def xConcatenatedOffsets (duration : ℚ) (n : ℕ) : List ℚ :=
  if n % 2 = 1 then (xSurvivingOffsets duration n).dropLast
  else xSurvivingOffsets duration n

/-- The X-concatenated generator `new_x_concatenated_sequence` (source
lines 599-666): validation, the offsets above, a full rabi rotation per
offset and zero azimuthal/detuning arrays, handed to the constructor. -/
def newXConcatenatedSequence (duration : ℚ) (concatenation_order : ℕ) :
    Except Err DDSequence :=
  if duration ≤ 0 then
    .error (.argumentsValueError "Sequence duration must be above zero:")
  else if concatenation_order ≤ 0 then
    .error (.argumentsValueError "Concatenation oder must be above zero:")
  else
    let offsets := xConcatenatedOffsets duration concatenation_order
    newDDSequence duration (some offsets)
      (some (List.replicate offsets.length 1))
      (some (List.replicate offsets.length 0))
      (some (List.replicate offsets.length 0)) false none

/-- Number of pulses (zero entries of the pattern) the pattern places at
the cumulative position `v`, starting from position `acc` with unit
spacing `u`.  This is the spec's notion of the merged pulse multiplicity
of a position. -/
def pulseCountFrom (u acc v : ℚ) : List ℕ → ℕ
  | [] => 0
  | c :: r =>
      (if c = 0 ∧ acc = v then 1 else 0) + pulseCountFrom u (acc + c * u) v r

/-- Number of advancing pattern entries that land exactly on position `v`. -/
def stepCountFrom (u acc v : ℚ) : List ℕ → ℕ
  | [] => 0
  | c :: r =>
      (if c ≠ 0 ∧ acc + c * u = v then 1 else 0) + stepCountFrom u (acc + c * u) v r

/-- Modelled from the spec (section 4.5): the cumulative pulse positions
of the pattern whose final merged multiplicity is odd, in ascending order;
even-multiplicity positions cancel and are dropped. -/
def oddPulsePositions (duration : ℚ) (n : ℕ) : List ℚ :=
  (((xCumulativePositions duration n).dedup).insertionSort (· ≤ ·)).filter
    (fun v => decide (pulseCountFrom (duration / 2 ^ n) 0 v (concatenationX n) % 2 = 1))

/-- Overwrite the last entry of an array (`arr[-1] = v`).  The source only
does this on nonempty arrays. -/
def setLast (l : List ℤ) (v : ℤ) : List ℤ := l.dropLast ++ [v]

/-- The recursive four-marker pattern `_concatenation_xy` (source lines
892-925): order 1 is the eight-marker base pattern; higher orders splice
four copies of the previous order, replacing the element before each
splice point by the frame marker `-3`, trimming two elements after the
second copy, and trimming a trailing duplicated `-2` pair.  Order 0 (never
requested by the generator, which validates the order first) is the empty
pattern. -/
def concatenationXY : ℕ → List ℤ
  | 0 => []
  | 1 => [1, -1, 1, -2, 1, -1, 1, -2]
  | n + 2 =>
      let c := concatenationXY (n + 1)
      let s1 := setLast ((c ++ [-1]).dropLast) (-3)
      let s2 := ((s1 ++ c ++ [-2]).dropLast).dropLast
      let s3 := setLast ((s2 ++ c ++ [-1]).dropLast) (-3)
      let s4 := s3 ++ c ++ [-2]
      if s4.getLast? = some (-2) ∧ s4.dropLast.getLast? = some (-2)
      then (s4.dropLast).dropLast else s4

/-- Marker-stream extraction of the XY generator (source lines 715-743):
drop the two foreign marker kinds, then turn each remaining element into a
unit time step (1) or an in-place pulse (0, for the stream's own marker).
The source stores these steps as a 0/1 float array before scaling; here
they are naturals, scaled when the cumulative sums are formed. -/
def streamSteps (cum : List ℤ) (drop1 drop2 marker : ℤ) : List ℕ :=
  ((cum.filter (fun c => decide (c ≠ drop1))).filter
    (fun c => decide (c ≠ drop2))).map (fun op => if op = marker then 0 else 1)

/-- Offsets of one marker stream (source lines 715-743): scale the steps
by the unit spacing, form cumulative sums, and keep the unique values with
even occurrence count. -/
def streamOffsets (cum : List ℤ) (drop1 drop2 marker : ℤ) (u : ℚ) : List ℚ :=
  npUniqueEvenCount
    (cumsumQFrom 0 ((streamSteps cum drop1 drop2 marker).map (fun c : ℕ => (c : ℚ) * u)))

/-- Rabi (X-type) offsets of the XY generator. -/
def xyRabiOffsets (duration : ℚ) (n : ℕ) : List ℚ :=
  streamOffsets (concatenationXY n) (-2) (-3) (-1) (duration / 2 ^ (2 * n))

/-- Azimuthal (Y-type) offsets of the XY generator. -/
def xyAzimuthalOffsets (duration : ℚ) (n : ℕ) : List ℚ :=
  streamOffsets (concatenationXY n) (-1) (-3) (-2) (duration / 2 ^ (2 * n))

/-- Detuning (Z-type) offsets of the XY generator. -/
def xyDetuningOffsets (duration : ℚ) (n : ℕ) : List ℚ :=
  streamOffsets (concatenationXY n) (-2) (-1) (-3) (duration / 2 ^ (2 * n))

/-- One row of the four parallel arrays of the XY generator:
(offset, rabi_rotation, azimuthal_angle, detuning_rotation). -/
abbrev XYRow : Type := ℚ × ℚ × ℚ × ℚ

/-- The two-pointer merge of the rabi and azimuthal offset lists (source
lines 754-785), writing the parallel rows in order: a rabi row carries
rabi π, an azimuthal row carries rabi π and azimuthal π/2 (ties favour the
azimuthal stream, and the two leftover loops behave identically). -/
def mergeRows : List ℚ → List ℚ → List XYRow
  | [], [] => []
  | [], a :: as2 => ((a, 1, 1/2, 0) : ℚ × ℚ × ℚ × ℚ) :: mergeRows [] as2
  | x :: rs, [] => ((x, 1, 0, 0) : ℚ × ℚ × ℚ × ℚ) :: mergeRows rs []
  | x :: rs, a :: as2 =>
      if x < a then ((x, 1, 0, 0) : ℚ × ℚ × ℚ × ℚ) :: mergeRows rs (a :: as2)
      else ((a, 1, 1/2, 0) : ℚ × ℚ × ℚ × ℚ) :: mergeRows (x :: rs) as2
termination_by r a => r.length + a.length

/-- An untouched preallocated row (`np.zeros`). -/
def zeroRow : XYRow := ((0 : ℚ), (0 : ℚ), (0 : ℚ), (0 : ℚ))

/-- Offset of a row. -/
def rowOffset (t : XYRow) : ℚ := t.1

/-- One insertion step of the detuning loop (source lines 792-798): the
overlapping slice assignments `arr[k+1:] = arr[k:-1]` shift every row from
index `k` one place right (dropping the trailing row, which is a spare
zero row), then row `k` is overwritten with the detuning row
`(z, 0, 0, π)`. -/
def shiftInsertRows (rows : List XYRow) (k : ℕ) (z : ℚ) : List XYRow :=
  rows.take k ++ ((z, 0, 0, 1) : ℚ × ℚ × ℚ × ℚ) :: (rows.drop k).dropLast

/-- The detuning insertion loop (source lines 788-801), with the iteration
count as structural fuel: at index `i` the current offset is read (the
Python iterator sees the mutated array), an insertion happens when it
exceeds the next detuning offset, and the loop breaks as soon as the
detuning offsets are exhausted. -/
def insertLoopGo : ℕ → ℕ → List XYRow → List ℚ → List XYRow
  | 0, _, rows, _ => rows
  | _ + 1, _, rows, [] => rows
  | f + 1, i, rows, z :: zs =>
      match rows[i]? with
      | none => rows
      | some row =>
        if z < rowOffset row then
          match zs with
          | [] => shiftInsertRows rows i z
          | _ :: _ => insertLoopGo f (i + 1) (shiftInsertRows rows i z) zs
        else insertLoopGo f (i + 1) rows (z :: zs)

/-- The guarded detuning insertion (source line 788: `if detuning_offsets:`). -/
def insertDetuning (rows : List XYRow) (zs : List ℚ) : List XYRow :=
  if zs.isEmpty then rows else insertLoopGo rows.length 0 rows zs

/-- The preallocated arrays after the rabi/azimuthal merge (source lines
748-785): the merged rows followed by one spare zero row per detuning
offset (the arrays are preallocated with the total length and the merge
loops fill only the first `|rabi| + |azimuthal|` entries). -/
def xyMergedRows (duration : ℚ) (n : ℕ) : List XYRow :=
  mergeRows (xyRabiOffsets duration n) (xyAzimuthalOffsets duration n)
    ++ List.replicate (xyDetuningOffsets duration n).length zeroRow

/-- The four parallel arrays of the XY generator after detuning insertion. -/
def xyFinalRows (duration : ℚ) (n : ℕ) : List XYRow :=
  insertDetuning (xyMergedRows duration n) (xyDetuningOffsets duration n)

/-- The XY-concatenated generator `new_xy_concatenated_sequence` (source
lines 669-808): validation, stream extraction, merge, detuning insertion,
and the final constructor call. -/
def newXYConcatenatedSequence (duration : ℚ) (concatenation_order : ℕ) :
    Except Err DDSequence :=
  if duration ≤ 0 then
    .error (.argumentsValueError "Sequence duration must be above zero:")
  else if concatenation_order ≤ 0 then
    .error (.argumentsValueError "Concatenation oder must be above zero:")
  else
    let rows := xyFinalRows duration concatenation_order
    newDDSequence duration (some (rows.map rowOffset))
      (some (rows.map (fun t => t.2.1)))
      (some (rows.map (fun t => t.2.2.1)))
      (some (rows.map (fun t => t.2.2.2))) false none

/-- Sorted insertion of the detuning offsets into the merged rows, keeping
every merged row and placing each detuning row `(z, 0, 0, π)` immediately
before the first remaining row whose offset exceeds `z`: the mathematical
description of the effect of the source's right-shift insertion loop. -/
def insertMergeRows : List XYRow → List ℚ → List XYRow
  | rest, [] => rest
  | [], _ :: _ => []
  | t :: rest, z :: zs =>
      if z < rowOffset t then
        ((z, 0, 0, 1) : ℚ × ℚ × ℚ × ℚ) :: insertMergeRows (t :: rest) zs
      else t :: insertMergeRows rest (z :: zs)
termination_by rest zs => rest.length + zs.length

/-! ### Theorems -/

theorem getLast?_cons_of_ne_nil {α : Type} (a : α) {l : List α} (h : l ≠ []) :
    (a :: l).getLast? = l.getLast? := by
  cases l with
  | nil => exact absurd rfl h
  | cons b t => exact List.getLast?_cons_cons

theorem getLast?_set_last {α : Type} (l : List α) (v : α) (h : l ≠ []) :
    (l.set (l.length - 1) v).getLast? = some v := by
  induction l with
  | nil => exact absurd rfl h
  | cons a t ih =>
    cases t with
    | nil => rfl
    | cons b u =>
      have hne : (b :: u) ≠ [] := by simp
      have hlen : (a :: b :: u).length - 1 = ((b :: u).length - 1) + 1 := by
        simp
      rw [hlen, List.set_cons_succ]
      rw [getLast?_cons_of_ne_nil]
      · exact ih hne
      · intro hc
        have := congrArg List.length hc
        simp at this

theorem head?_set_zero {α : Type} (l : List α) (v : α) (h : l ≠ []) :
    (l.set 0 v).head? = some v := by
  cases l with
  | nil => exact absurd rfl h
  | cons a t => rfl

theorem set_zero_of_head? {α : Type} {l : List α} {v : α} (h : l.head? = some v) :
    l.set 0 v = l := by
  cases l with
  | nil => simp at h
  | cons a t => simp at h; simp [h]

theorem set_last_of_getLast? {α : Type} {l : List α} {v : α} (h : l.getLast? = some v) :
    l.set (l.length - 1) v = l := by
  induction l with
  | nil => simp at h
  | cons a t ih =>
    cases t with
    | nil =>
      simp at h
      simp [h]
    | cons b u =>
      have hne : (b :: u) ≠ [] := by simp
      rw [getLast?_cons_of_ne_nil a hne] at h
      have hlen : (a :: b :: u).length - 1 = ((b :: u).length - 1) + 1 := by simp
      rw [hlen, List.set_cons_succ, ih h]

theorem length_set_eq {α : Type} (l : List α) (i : ℕ) (v : α) :
    (l.set i v).length = l.length := List.length_set l i v

theorem dropLast_set_last {α : Type} (l : List α) (v : α) :
    (l.set (l.length - 1) v).dropLast = l.dropLast := by
  induction l with
  | nil => rfl
  | cons a t ih =>
    cases t with
    | nil => rfl
    | cons b u =>
      have hlen : (a :: b :: u).length - 1 = ((b :: u).length - 1) + 1 := by simp
      rw [hlen, List.set_cons_succ]
      have h1 : ((a :: (b :: u).set ((b :: u).length - 1) v)).dropLast
          = a :: ((b :: u).set ((b :: u).length - 1) v).dropLast := by
        apply List.dropLast_cons_of_ne_nil
        intro hc
        have := congrArg List.length hc
        simp at this
      rw [h1, ih]
      exact (List.dropLast_cons_of_ne_nil (by simp) (x := a)).symm

theorem getLast?_replicate_succ {α : Type} (n : ℕ) (x : α) :
    (List.replicate (n + 1) x).getLast? = some x := by
  induction n with
  | zero => rfl
  | succ m ih =>
    rw [List.replicate_succ, getLast?_cons_of_ne_nil]
    · rw [ih]
    · simp [List.replicate_succ]

/-- Everything a successful construction guarantees: the validated input
facts, and the final arrays expressed through the two
boundary-normalization steps applied to the defaulted input arrays. -/
theorem newDDSequence_ok {du : ℚ} {o? r? a? d? : Option (List ℚ)} {pp : Bool}
    {nm : Option String} {s : DDSequence}
    (h : newDDSequence du o? r? a? d? pp nm = .ok s) :
    ∃ h0 t L A2,
      (effArrays o? r? a? d?).offs = h0 :: t ∧
      (h0 :: t).getLast? = some L ∧
      A2 = appendBoundary pp du L (prependBoundary pp h0 (effArrays o? r? a? d?)) ∧
      0 < du ∧
      (h0 :: t).length ≤ UPPER_BOUND_OFFSETS ∧
      (∀ x ∈ (h0 :: t), 0 ≤ x ∧ x ≤ du) ∧
      (pp = true → h0 = 0 → (effArrays o? r? a? d?).rab ≠ []) ∧
      A2.rab.length = A2.offs.length ∧
      A2.azi.length = A2.offs.length ∧
      A2.det.length = A2.offs.length ∧
      s = ⟨du, A2.offs, A2.rab, A2.azi, A2.det, pp, nm⟩ := by
  rw [newDDSequence] at h
  dsimp only at h
  split at h
  · exact absurd h (by simp)
  · split at h
    · exact absurd h (by simp)
    · split at h
      · exact absurd h (by simp)
      · rename_i hdur hlen hany
        split at h
        · exact absurd h (by simp)
        · rename_i h0 hhead
          split at h
          · exact absurd h (by simp)
          · rename_i hguard1
            split at h
            · exact absurd h (by simp)
            · rename_i L hlast
              split at h
              · exact absurd h (by simp)
              · rename_i hguard2
                split at h
                · exact absurd h (by simp)
                · split at h
                  · exact absurd h (by simp)
                  · split at h
                    · exact absurd h (by simp)
                    · rename_i hlr hla hld
                      obtain ⟨t, ht⟩ : ∃ t, (effArrays o? r? a? d?).offs = h0 :: t := by
                        cases he : (effArrays o? r? a? d?).offs with
                        | nil => rw [he] at hhead; simp at hhead
                        | cons a u =>
                          rw [he] at hhead
                          simp at hhead
                          exact ⟨u, by rw [hhead]⟩
                      refine ⟨h0, t, L, _, ht, ?_, rfl, ?_, ?_, ?_, ?_, ?_, ?_, ?_, ?_⟩
                      · rw [prependBoundary] at hlast
                        split at hlast
                        · dsimp only at hlast
                          rw [ht] at hlast
                          rwa [List.getLast?_cons_cons] at hlast
                        · split at hlast
                          · dsimp only at hlast
                            rwa [ht] at hlast
                          · rwa [ht] at hlast
                      · exact lt_of_not_le (by simpa using hdur)
                      · rw [← ht]; simpa using hlen
                      · intro x hx
                        have hall : ∀ y ∈ (effArrays o? r? a? d?).offs, 0 ≤ y ∧ y ≤ du := by
                          simpa using hany
                        exact hall x (by rw [ht]; exact hx)
                      · intro hpp hh0
                        intro hrabnil
                        exact hguard1 ⟨by simp [hpp], hh0, hrabnil⟩
                      · simpa using hlr
                      · simpa using hla
                      · simpa using hld
                      · simp only [Except.ok.injEq] at h
                        exact h.symm

/-- C4 counterexample: with `duration = 2` and `offsets` omitted, the
defaulted offsets list is the absolute value `[0.5]`, not
`[duration/2] = [1]`: the constructed sequence is `[0, 1/2, 2]`, whose
single interior offset `1/2` is not the midpoint `2/2 = 1`. -/
theorem c4_default_not_midpoint_counterexample :
    newDDSequence 2 none none none none false none =
      .ok ⟨2, [0, 1/2, 2], [0, 1, 0], [0, 0, 0], [0, 0, 0], false, none⟩ ∧
    (([(0 : ℚ), 1/2, 2].drop 1).dropLast ≠ [(2 : ℚ) / 2]) := by
  constructor
  · rw [newDDSequence]
    norm_num [effArrays, prependBoundary, appendBoundary, UPPER_BOUND_OFFSETS]
  · norm_num

/-- C4 (amended): the defaulted offsets list is the fixed value `[0.5]`,
independent of `duration` (the Python source line 100 is
`offsets = [0.5]`).  Consequently the sequence built from omitted offsets
is `[0, 1/2, duration]` whenever `duration > 1/2`, is `[0, 1/2]` when
`duration = 1/2`, and fails range validation whenever
`duration < 1/2`; its interior offset equals the midpoint `duration/2`
only when `duration = 1`. -/
theorem c4_default_offsets_are_half (du : ℚ) (hdu : 0 < du) :
    (effArrays none none none none).offs = [1/2] ∧
    (1/2 < du → newDDSequence du none none none none false none =
      .ok ⟨du, [0, 1/2, du], [0, 1, 0], [0, 0, 0], [0, 0, 0], false, none⟩) ∧
    (du = 1/2 → newDDSequence du none none none none false none =
      .ok ⟨1/2, [0, 1/2], [0, 1], [0, 0], [0, 0], false, none⟩) ∧
    (du < 1/2 → newDDSequence du none none none none false none =
      .error (.argumentsValueError
        "Offsets for dynamic decoupling sequence must be between 0 and sequence duration (inclusive). ")) := by
  refine ⟨rfl, ?_, ?_, ?_⟩
  · intro hlt
    have h1 : ¬ du ≤ 0 := not_le.mpr hdu
    have h2 : ¬ du < 2⁻¹ := by
      rw [not_lt]
      rw [show ((2 : ℚ))⁻¹ = 1/2 by norm_num]
      exact le_of_lt hlt
    have h3 : ¬ (1 : ℚ)/2 = du := ne_of_lt hlt
    rw [newDDSequence]
    norm_num [effArrays, prependBoundary, appendBoundary, UPPER_BOUND_OFFSETS,
      h1, h2, h3]
    intro hc
    exact absurd hc (not_lt.mpr (le_of_lt hlt))
  · intro heq
    subst heq
    rw [newDDSequence]
    norm_num [effArrays, prependBoundary, appendBoundary, UPPER_BOUND_OFFSETS]
  · intro hlt
    have h1 : ¬ du ≤ 0 := not_le.mpr hdu
    have h2 : du < 2⁻¹ := by
      rw [show ((2 : ℚ))⁻¹ = 1/2 by norm_num]
      exact hlt
    rw [newDDSequence]
    norm_num [effArrays, UPPER_BOUND_OFFSETS, h1, h2]
    intro hc
    exact absurd hlt (not_lt.mpr hc)

/-- Witness for `c4_default_offsets_are_half` at `duration = 2`. -/
theorem c4_default_offsets_are_half_witness :
    (effArrays none none none none).offs = [1/2] ∧
    (1/2 < (2 : ℚ) → newDDSequence 2 none none none none false none =
      .ok ⟨2, [0, 1/2, 2], [0, 1, 0], [0, 0, 0], [0, 0, 0], false, none⟩) ∧
    ((2 : ℚ) = 1/2 → newDDSequence 2 none none none none false none =
      .ok ⟨1/2, [0, 1/2], [0, 1], [0, 0], [0, 0], false, none⟩) ∧
    ((2 : ℚ) < 1/2 → newDDSequence 2 none none none none false none =
      .error (.argumentsValueError
        "Offsets for dynamic decoupling sequence must be between 0 and sequence duration (inclusive). ")) :=
  c4_default_offsets_are_half 2 (by norm_num)

theorem getLast?_append_single {α : Type} (l : List α) (x : α) :
    (l ++ [x]).getLast? = some x := by
  induction l with
  | nil => rfl
  | cons a t ih =>
    rw [List.cons_append, getLast?_cons_of_ne_nil a (by simp), ih]

theorem head?_append_of_ne_nil {α : Type} (l l2 : List α) (h : l ≠ []) :
    (l ++ l2).head? = l.head? := by
  cases l with
  | nil => exact absurd rfl h
  | cons a t => rfl

theorem head?_set_last_self {α : Type} (l : List α) (v : α) (hh : l.head? = some v) :
    (l.set (l.length - 1) v).head? = some v := by
  cases l with
  | nil => simp at hh
  | cons a t =>
    cases t with
    | nil => rfl
    | cons b u =>
      have hlen : (a :: b :: u).length - 1 = ((b :: u).length - 1) + 1 := by simp
      rw [hlen, List.set_cons_succ]
      simpa using hh

/-- Normalized first rabi entry under `pre_post_rotation`: the front step
always leaves a quarter turn at the head of a nonempty rabi array. -/
theorem prepend_rab_quarter (o? r? a? d? : Option (List ℚ)) (h0 : ℚ)
    (hguard : h0 = 0 → (effArrays o? r? a? d?).rab ≠ []) :
    (prependBoundary true h0 (effArrays o? r? a? d?)).rab.head? = some (1/2) ∧
    (prependBoundary true h0 (effArrays o? r? a? d?)).rab ≠ [] := by
  rw [prependBoundary]
  by_cases hz : h0 ≠ 0
  · rw [if_pos hz]
    exact ⟨rfl, by simp⟩
  · push_neg at hz
    rw [if_neg (by simpa using hz)]
    simp only [if_pos rfl, ite_true]
    have hrne : (effArrays o? r? a? d?).rab ≠ [] := hguard hz
    refine ⟨head?_set_zero _ _ hrne, ?_⟩
    intro hc
    have := congrArg List.length hc
    simp at this
    exact hrne this

/-- Helper carrying the pre/post-rotation boundary fact, shared by the
idempotence proof. -/
theorem ok_rab_boundary_quarter (du : ℚ) (o? r? a? d? : Option (List ℚ))
    (nm : Option String) (s : DDSequence)
    (h : newDDSequence du o? r? a? d? true nm = .ok s) :
    s.rabi_rotations.head? = some (1/2) ∧ s.rabi_rotations.getLast? = some (1/2) := by
  obtain ⟨h0, t, L, A2, ht, hL, hA2, hdu, hlen, hbound, hguard, hlr, hla, hld, hs⟩ :=
    newDDSequence_ok h
  have hA1 := prepend_rab_quarter o? r? a? d? h0
    (fun hz => hguard rfl hz)
  subst hs
  subst hA2
  simp only
  rw [appendBoundary]
  by_cases hLdu : L ≠ du
  · rw [if_pos hLdu]
    refine ⟨?_, ?_⟩
    · simp only
      rw [head?_append_of_ne_nil _ _ hA1.2, hA1.1]
    · simp only
      rw [getLast?_append_single]
      simp
  · rw [if_neg hLdu]
    simp only [if_pos rfl, ite_true]
    exact ⟨head?_set_last_self _ _ hA1.1, getLast?_set_last _ _ hA1.2⟩

/-- C5: for every successful construction with `pre_post_rotation = True`,
the first and last rabi rotation entries equal a quarter turn (π/2, which
is `1/2` in units of π), regardless of the boundary values supplied and of
whether the boundary offsets were supplied or synthesized. -/
theorem c5_pre_post_forces_quarter_turns (du : ℚ) (o? r? a? d? : Option (List ℚ))
    (nm : Option String) (s : DDSequence)
    (h : newDDSequence du o? r? a? d? true nm = .ok s) :
    s.rabi_rotations.head? = some (1/2) ∧ s.rabi_rotations.getLast? = some (1/2) :=
  ok_rab_boundary_quarter du o? r? a? d? nm s h

/-- Witness for `c5_pre_post_forces_quarter_turns`: a concrete construction
with boundary rabi values `7` supplied at offsets `0` and `duration`, which
are overwritten to quarter turns. -/
theorem c5_pre_post_forces_quarter_turns_witness :
    (⟨1, [0, 1/2, 1], [1/2, 3, 1/2], [0, 0, 0], [0, 0, 0], true, none⟩ :
        DDSequence).rabi_rotations.head? = some (1/2) ∧
    (⟨1, [0, 1/2, 1], [1/2, 3, 1/2], [0, 0, 0], [0, 0, 0], true, none⟩ :
        DDSequence).rabi_rotations.getLast? = some (1/2) :=
  c5_pre_post_forces_quarter_turns 1 (some [0, 1/2, 1]) (some [7, 3, 7])
    (some [0, 0, 0]) (some [0, 0, 0]) none
    ⟨1, [0, 1/2, 1], [1/2, 3, 1/2], [0, 0, 0], [0, 0, 0], true, none⟩ (by
      rw [newDDSequence]
      norm_num [effArrays, prependBoundary, appendBoundary, UPPER_BOUND_OFFSETS]
      simp [List.set])

/-- C6: the exact boundary behaviour of a successful construction.  If the
supplied first offset is nonzero, exactly one entry is prepended to each
array: offset `0`, rabi `π/2` if `pre_post_rotation` else `0`, and `0` for
azimuthal and detuning; symmetrically, if the (supplied) last offset
differs from the duration, one entry with the same value rule is appended.
The remaining two cases (first offset `0`, last offset equal to the
duration) modify at most the first/last rabi entry. -/
theorem c6_boundary_entries (du : ℚ) (o? r? a? d? : Option (List ℚ)) (pp : Bool)
    (nm : Option String) (s : DDSequence) (h0 L : ℚ) (t : List ℚ)
    (h : newDDSequence du o? r? a? d? pp nm = .ok s)
    (he : (effArrays o? r? a? d?).offs = h0 :: t)
    (hL : (h0 :: t).getLast? = some L) :
    (h0 ≠ 0 → L ≠ du →
      s.offsets = 0 :: (h0 :: t) ++ [du] ∧
      s.rabi_rotations =
        (if pp then 1/2 else 0) :: (effArrays o? r? a? d?).rab ++ [if pp then 1/2 else 0] ∧
      s.azimuthal_angles = 0 :: (effArrays o? r? a? d?).azi ++ [0] ∧
      s.detuning_rotations = 0 :: (effArrays o? r? a? d?).det ++ [0]) ∧
    (h0 ≠ 0 → L = du →
      s.offsets = 0 :: (h0 :: t) ∧
      s.rabi_rotations =
        (if pp then (((1/2 : ℚ) :: (effArrays o? r? a? d?).rab).set
          ((effArrays o? r? a? d?).rab.length) (1/2))
         else 0 :: (effArrays o? r? a? d?).rab) ∧
      s.azimuthal_angles = 0 :: (effArrays o? r? a? d?).azi ∧
      s.detuning_rotations = 0 :: (effArrays o? r? a? d?).det) ∧
    (h0 = 0 → L ≠ du →
      s.offsets = (h0 :: t) ++ [du] ∧
      s.rabi_rotations =
        (if pp then (effArrays o? r? a? d?).rab.set 0 (1/2)
         else (effArrays o? r? a? d?).rab) ++ [if pp then 1/2 else 0] ∧
      s.azimuthal_angles = (effArrays o? r? a? d?).azi ++ [0] ∧
      s.detuning_rotations = (effArrays o? r? a? d?).det ++ [0]) ∧
    (h0 = 0 → L = du →
      s.offsets = h0 :: t ∧
      s.rabi_rotations =
        (if pp then ((effArrays o? r? a? d?).rab.set 0 (1/2)).set
          ((effArrays o? r? a? d?).rab.length - 1) (1/2)
         else (effArrays o? r? a? d?).rab) ∧
      s.azimuthal_angles = (effArrays o? r? a? d?).azi ∧
      s.detuning_rotations = (effArrays o? r? a? d?).det) := by
  obtain ⟨g0, u, M, A2, ht, hM, hA2, hdu, hlen, hbound, hguard, hlr, hla, hld, hs⟩ :=
    newDDSequence_ok h
  have hgu : g0 = h0 ∧ u = t := by
    have := ht.symm.trans he
    exact ⟨by injection this, by injection this⟩
  obtain ⟨hg0, hu⟩ := hgu
  subst hg0 hu
  have hML : M = L := by
    rw [hM] at hL
    injection hL
  subst hML
  subst hs
  subst hA2
  refine ⟨?_, ?_, ?_, ?_⟩ <;>
    · intro hz hLdu
      cases pp <;> simp [prependBoundary, appendBoundary, hz, hLdu, he]

/-- Witness for `c6_boundary_entries`: supplied offsets `[3/10, 7/10]`
with nonzero first offset and last offset below the duration get boundary
entries prepended and appended on every array. -/
theorem c6_boundary_entries_witness :
    ((3 : ℚ)/10 ≠ 0 → (7 : ℚ)/10 ≠ 1 →
      ([(0 : ℚ), 3/10, 7/10, 1] : List ℚ) = 0 :: ((3 : ℚ)/10 :: [(7 : ℚ)/10]) ++ [1] ∧
      ([(0 : ℚ), 2, 3, 0] : List ℚ) =
        (if false then 1/2 else 0) :: (effArrays (some [3/10, 7/10]) (some [2, 3])
          (some [4, 5]) (some [6, 7])).rab ++ [if false then 1/2 else 0] ∧
      ([(0 : ℚ), 4, 5, 0] : List ℚ) = 0 :: (effArrays (some [3/10, 7/10]) (some [2, 3])
          (some [4, 5]) (some [6, 7])).azi ++ [0] ∧
      ([(0 : ℚ), 6, 7, 0] : List ℚ) = 0 :: (effArrays (some [3/10, 7/10]) (some [2, 3])
          (some [4, 5]) (some [6, 7])).det ++ [0]) ∧
    ((3 : ℚ)/10 ≠ 0 → (7 : ℚ)/10 = 1 → True) ∧
    ((3 : ℚ)/10 = 0 → (7 : ℚ)/10 ≠ 1 → True) ∧
    ((3 : ℚ)/10 = 0 → (7 : ℚ)/10 = 1 → True) := by
  have base := c6_boundary_entries 1 (some [3/10, 7/10]) (some [2, 3]) (some [4, 5])
    (some [6, 7]) false none
    ⟨1, [0, 3/10, 7/10, 1], [0, 2, 3, 0], [0, 4, 5, 0], [0, 6, 7, 0], false, none⟩
    (3/10) (7/10) [7/10]
    (by
      rw [newDDSequence]
      norm_num [effArrays, prependBoundary, appendBoundary, UPPER_BOUND_OFFSETS])
    (by norm_num [effArrays]) (by norm_num)
  refine ⟨?_, fun _ _ => trivial, fun _ _ => trivial, fun _ _ => trivial⟩
  intro hz hLdu
  simpa using base.1 hz hLdu

theorem tail_set_zero {α : Type} (l : List α) (v : α) :
    (l.set 0 v).tail = l.tail := by
  cases l <;> rfl

theorem dropLast_append_single {α : Type} (l : List α) (x : α) :
    (l ++ [x]).dropLast = l := by
  induction l with
  | nil => rfl
  | cons a t ih =>
    rw [List.cons_append, List.dropLast_cons_of_ne_nil (by simp), ih]

theorem tail_dropLast_append_single {α : Type} (l : List α) (x : α) :
    (l ++ [x]).tail.dropLast = l.tail := by
  cases l with
  | nil => rfl
  | cons a t =>
    rw [List.cons_append, List.tail_cons, List.tail_cons, dropLast_append_single]

theorem tail_dropLast_set_zero_append (l : List ℚ) (v w : ℚ) :
    ((l.set 0 v) ++ [w]).tail.dropLast = l.tail := by
  cases l with
  | nil => rfl
  | cons a t =>
    rw [List.set_cons_zero, List.cons_append, List.tail_cons, List.tail_cons,
      dropLast_append_single]

theorem dropLast_cons_append_single {α : Type} (a : α) (l : List α) (x : α) :
    (a :: (l ++ [x])).dropLast = a :: l := by
  rw [← List.cons_append, dropLast_append_single]

theorem interior_cons_set_last (r : List ℚ) (w v : ℚ) :
    (((w : ℚ) :: r).set r.length v).tail.dropLast = r.dropLast := by
  cases r with
  | nil => simp
  | cons b u =>
    have hidx : (b :: u).length = u.length + 1 := by simp
    rw [hidx, List.set_cons_succ]
    have : (b :: u).length - 1 = u.length := by simp
    rw [← this, List.tail_cons, dropLast_set_last]

theorem interior_set_both (r : List ℚ) (v w : ℚ) :
    ((r.set 0 v).set (r.length - 1) w).tail.dropLast = r.tail.dropLast := by
  cases r with
  | nil => simp
  | cons a u =>
    cases u with
    | nil => simp
    | cons b z =>
      have h1 : ((a :: b :: z).set 0 v) = v :: b :: z := rfl
      have h2 : (a :: b :: z).length - 1 = (b :: z).length - 1 + 1 := by simp
      rw [h1, h2, List.set_cons_succ, List.tail_cons, List.tail_cons,
        dropLast_set_last]

/-- C10: for every successful construction, the interior entries (all
indices except the first and the last) of the four final arrays are
exactly the corresponding caller-supplied entries, unchanged: the boundary
normalization only prepends/appends boundary entries or overwrites the
first/last rabi entry, never an interior entry.  The interior of the final
array equals the supplied array itself when both boundaries were
synthesized, and loses only its own first/last entry when the
corresponding boundary was already present. -/
theorem c10_interior_unchanged (du : ℚ) (o? r? a? d? : Option (List ℚ)) (pp : Bool)
    (nm : Option String) (s : DDSequence) (h0 L : ℚ) (t : List ℚ)
    (h : newDDSequence du o? r? a? d? pp nm = .ok s)
    (he : (effArrays o? r? a? d?).offs = h0 :: t)
    (hL : (h0 :: t).getLast? = some L) :
    interior s.offsets =
      (if L = du then (if h0 = 0 then (h0 :: t).tail else h0 :: t).dropLast
       else (if h0 = 0 then (h0 :: t).tail else h0 :: t)) ∧
    interior s.rabi_rotations =
      (if L = du
       then (if h0 = 0 then (effArrays o? r? a? d?).rab.tail
             else (effArrays o? r? a? d?).rab).dropLast
       else (if h0 = 0 then (effArrays o? r? a? d?).rab.tail
             else (effArrays o? r? a? d?).rab)) ∧
    interior s.azimuthal_angles =
      (if L = du
       then (if h0 = 0 then (effArrays o? r? a? d?).azi.tail
             else (effArrays o? r? a? d?).azi).dropLast
       else (if h0 = 0 then (effArrays o? r? a? d?).azi.tail
             else (effArrays o? r? a? d?).azi)) ∧
    interior s.detuning_rotations =
      (if L = du
       then (if h0 = 0 then (effArrays o? r? a? d?).det.tail
             else (effArrays o? r? a? d?).det).dropLast
       else (if h0 = 0 then (effArrays o? r? a? d?).det.tail
             else (effArrays o? r? a? d?).det)) := by
  obtain ⟨g0, u, M, A2, ht, hM, hA2, hdu, hlen, hbound, hguard, hlr, hla, hld, hs⟩ :=
    newDDSequence_ok h
  have hgu : g0 = h0 ∧ u = t := by
    have := ht.symm.trans he
    exact ⟨by injection this, by injection this⟩
  obtain ⟨hg0, hu⟩ := hgu
  subst hg0 hu
  have hML : M = L := by
    rw [hM] at hL
    injection hL
  subst hML
  subst hs
  subst hA2
  by_cases hz : g0 = 0 <;> by_cases hLd : M = du <;>
    cases pp <;>
      simp [interior, prependBoundary, appendBoundary, hz, hLd, he,
        tail_set_zero, interior_cons_set_last, interior_set_both,
        dropLast_set_last, dropLast_append_single, tail_dropLast_append_single,
        tail_dropLast_set_zero_append, dropLast_cons_append_single]

/-- Witness for `c10_interior_unchanged` at a concrete input with both
boundaries synthesized: the interiors are the supplied arrays themselves. -/
theorem c10_interior_unchanged_witness :
    interior ([(0 : ℚ), 3/10, 7/10, 1] : List ℚ) =
      (if (7 : ℚ)/10 = 1
       then (if (3 : ℚ)/10 = 0 then ((3 : ℚ)/10 :: [(7 : ℚ)/10]).tail
             else (3 : ℚ)/10 :: [(7 : ℚ)/10]).dropLast
       else (if (3 : ℚ)/10 = 0 then ((3 : ℚ)/10 :: [(7 : ℚ)/10]).tail
             else (3 : ℚ)/10 :: [(7 : ℚ)/10])) ∧
    interior ([(0 : ℚ), 2, 3, 0] : List ℚ) =
      (if (7 : ℚ)/10 = 1
       then (if (3 : ℚ)/10 = 0 then (effArrays (some [3/10, 7/10]) (some [2, 3])
               (some [4, 5]) (some [6, 7])).rab.tail
             else (effArrays (some [3/10, 7/10]) (some [2, 3])
               (some [4, 5]) (some [6, 7])).rab).dropLast
       else (if (3 : ℚ)/10 = 0 then (effArrays (some [3/10, 7/10]) (some [2, 3])
               (some [4, 5]) (some [6, 7])).rab.tail
             else (effArrays (some [3/10, 7/10]) (some [2, 3])
               (some [4, 5]) (some [6, 7])).rab)) ∧
    interior ([(0 : ℚ), 4, 5, 0] : List ℚ) =
      (if (7 : ℚ)/10 = 1
       then (if (3 : ℚ)/10 = 0 then (effArrays (some [3/10, 7/10]) (some [2, 3])
               (some [4, 5]) (some [6, 7])).azi.tail
             else (effArrays (some [3/10, 7/10]) (some [2, 3])
               (some [4, 5]) (some [6, 7])).azi).dropLast
       else (if (3 : ℚ)/10 = 0 then (effArrays (some [3/10, 7/10]) (some [2, 3])
               (some [4, 5]) (some [6, 7])).azi.tail
             else (effArrays (some [3/10, 7/10]) (some [2, 3])
               (some [4, 5]) (some [6, 7])).azi)) ∧
    interior ([(0 : ℚ), 6, 7, 0] : List ℚ) =
      (if (7 : ℚ)/10 = 1
       then (if (3 : ℚ)/10 = 0 then (effArrays (some [3/10, 7/10]) (some [2, 3])
               (some [4, 5]) (some [6, 7])).det.tail
             else (effArrays (some [3/10, 7/10]) (some [2, 3])
               (some [4, 5]) (some [6, 7])).det).dropLast
       else (if (3 : ℚ)/10 = 0 then (effArrays (some [3/10, 7/10]) (some [2, 3])
               (some [4, 5]) (some [6, 7])).det.tail
             else (effArrays (some [3/10, 7/10]) (some [2, 3])
               (some [4, 5]) (some [6, 7])).det)) :=
  c10_interior_unchanged 1 (some [3/10, 7/10]) (some [2, 3]) (some [4, 5])
    (some [6, 7]) false none
    ⟨1, [0, 3/10, 7/10, 1], [0, 2, 3, 0], [0, 4, 5, 0], [0, 6, 7, 0], false, none⟩
    (3/10) (7/10) [7/10]
    (by
      rw [newDDSequence]
      norm_num [effArrays, prependBoundary, appendBoundary, UPPER_BOUND_OFFSETS])
    (by norm_num [effArrays]) (by norm_num)

theorem mem_of_getLast?_eq {α : Type} {l : List α} {a : α} (h : l.getLast? = some a) :
    a ∈ l := by
  obtain ⟨hne, rfl⟩ := List.mem_getLast?_eq_getLast (Option.mem_def.mpr h)
  exact List.getLast_mem hne

theorem any_replicate (n : ℕ) (x : ℚ) (p : ℚ → Bool) :
    (List.replicate n x).any p = (decide (n ≠ 0) && p x) := by
  induction n with
  | zero => simp
  | succ m ih =>
    rw [List.replicate_succ, List.any_cons, ih]
    cases hp : p x <;> simp [hp]

/-- C2 counterexample: the constructor accepts 10000 in-range but unsorted
offsets; the constructed offsets array is not non-decreasing and has
10002 entries, exceeding the 10000 bound (the bound is checked before the
two boundary entries are inserted, and sortedness is never checked). -/
theorem c2_offsets_invariants_counterexample :
    newDDSequence 1 (some c2in) (some zeros10000) (some zeros10000) (some zeros10000)
      false none =
      .ok ⟨1, 0 :: c2in ++ [1], 0 :: zeros10000 ++ [0], 0 :: zeros10000 ++ [0],
        0 :: zeros10000 ++ [0], false, none⟩ ∧
    ¬ (0 :: c2in ++ [1] : List ℚ).Chain' (· ≤ ·) ∧
    UPPER_BOUND_OFFSETS < (0 :: c2in ++ [1] : List ℚ).length := by
  have hrepne : List.replicate 9998 ((3 : ℚ)/10) ≠ [] := by
    rw [show (9998 : ℕ) = 9997 + 1 by norm_num, List.replicate_succ]
    exact List.cons_ne_nil _ _
  have hzne : zeros10000 ≠ [] := by
    rw [zeros10000, show (10000 : ℕ) = 9999 + 1 by norm_num, List.replicate_succ]
    exact List.cons_ne_nil _ _
  have hlen : c2in.length = 10000 := by
    rw [c2in, List.length_cons, List.length_cons, List.length_replicate]
  have hlast : c2in.getLast? = some (3/10) := by
    rw [c2in, getLast?_cons_of_ne_nil _ (List.cons_ne_nil _ _),
      getLast?_cons_of_ne_nil _ hrepne,
      show (9998 : ℕ) = 9997 + 1 by norm_num]
    exact getLast?_replicate_succ 9997 _
  have hzlen : zeros10000.length = 10000 := by
    rw [zeros10000, List.length_replicate]
  have hlenif : ¬ ((0 : ℚ) :: zeros10000 ++ [0]).length ≠
      ((0 : ℚ) :: c2in ++ [1]).length := by
    rw [List.cons_append, List.cons_append, List.length_cons, List.length_cons,
      List.length_append, List.length_append, hzlen, hlen]
    exact fun hc => hc rfl
  refine ⟨?_, ?_, ?_⟩
  · rw [newDDSequence]
    have hany : (c2in.any fun x => decide (x < 0) || decide ((1 : ℚ) < x)) = false := by
      rw [c2in]
      simp only [List.any_cons, any_replicate]
      norm_num
    have hhead : c2in.head? = some (7/10) := by rw [c2in]; rfl
    simp only [effArrays, Option.getD_some]
    rw [if_neg (show ¬ (1 : ℚ) ≤ 0 by norm_num)]
    rw [if_neg (show ¬ UPPER_BOUND_OFFSETS < c2in.length by
      rw [hlen]; norm_num [UPPER_BOUND_OFFSETS])]
    rw [hany]
    rw [if_neg (show ¬ (false = true) from fun hc => Bool.noConfusion hc)]
    rw [hhead]
    dsimp only
    rw [if_neg (show ¬ (false = true ∧ (7 : ℚ)/10 = 0 ∧ zeros10000 = [])
      from fun hc => Bool.noConfusion hc.1)]
    rw [prependBoundary]
    rw [if_pos (show (7 : ℚ)/10 ≠ 0 by norm_num)]
    dsimp only
    rw [show (0 :: c2in).getLast? = some (3/10) by
      rw [getLast?_cons_of_ne_nil _ (by rw [c2in]; exact List.cons_ne_nil _ _), hlast]]
    dsimp only
    rw [if_neg (show ¬ (false = true ∧ (3 : ℚ)/10 = 1 ∧
      ((if false = true then (1 : ℚ)/2 else 0) :: zeros10000) = [])
      from fun hc => Bool.noConfusion hc.1)]
    rw [appendBoundary]
    rw [if_pos (show (3 : ℚ)/10 ≠ 1 by norm_num)]
    dsimp only
    rw [if_neg (show ¬ (false = true) from fun hc => Bool.noConfusion hc), if_neg hlenif,
      if_neg hlenif, if_neg hlenif]
  · intro hc
    rw [c2in] at hc
    simp only [List.cons_append] at hc
    have h2 := (List.chain'_cons.mp ((List.chain'_cons.mp hc).2)).1
    norm_num at h2
  · rw [List.cons_append, List.length_cons, List.length_append, hlen,
      UPPER_BOUND_OFFSETS]
    norm_num

/-- C2 (amended): for every accepted input whose supplied offsets are
non-decreasing, the constructed offsets array is non-decreasing, its first
entry is 0, its last entry is the duration, and its length is at most
10002 (at most 10000 supplied entries plus the two synthesized boundary
entries).  The unsorted-input and 10002-length behaviours are witnessed by
`c2_offsets_invariants_counterexample`. -/
theorem c2_offsets_invariants (du : ℚ) (o? r? a? d? : Option (List ℚ)) (pp : Bool)
    (nm : Option String) (s : DDSequence)
    (h : newDDSequence du o? r? a? d? pp nm = .ok s)
    (hsorted : (effArrays o? r? a? d?).offs.Chain' (· ≤ ·)) :
    s.offsets.Chain' (· ≤ ·) ∧
    s.offsets.head? = some 0 ∧
    s.offsets.getLast? = some du ∧
    s.offsets.length ≤ UPPER_BOUND_OFFSETS + 2 := by
  obtain ⟨g0, u, M, A2, ht, hM, hA2, hdu, hlen, hbound, hguard, hlr, hla, hld, hs⟩ :=
    newDDSequence_ok h
  rw [ht] at hsorted
  have hg0 : 0 ≤ g0 := (hbound g0 (by simp)).1
  have hMdu : M ≤ du := (hbound M (mem_of_getLast?_eq hM)).2
  subst hs
  subst hA2
  simp only
  have hoffs1 : (prependBoundary pp g0 (effArrays o? r? a? d?)).offs =
      (if g0 = 0 then g0 :: u else 0 :: g0 :: u) := by
    by_cases hz : g0 = 0 <;> cases pp <;>
      simp [prependBoundary, hz, ht]
  have hchain1 : (prependBoundary pp g0 (effArrays o? r? a? d?)).offs.Chain' (· ≤ ·) := by
    rw [hoffs1]
    by_cases hz : g0 = 0
    · rw [if_pos hz]; exact hsorted
    · rw [if_neg hz]
      exact List.chain'_cons.mpr ⟨hg0, hsorted⟩
  have hlast1 : (prependBoundary pp g0 (effArrays o? r? a? d?)).offs.getLast? = some M := by
    rw [hoffs1]
    by_cases hz : g0 = 0
    · rw [if_pos hz]; exact hM
    · rw [if_neg hz]
      rw [getLast?_cons_of_ne_nil _ (by simp)]
      exact hM
  have hhead1 : (prependBoundary pp g0 (effArrays o? r? a? d?)).offs.head? = some 0 := by
    rw [hoffs1]
    by_cases hz : g0 = 0
    · rw [if_pos hz, hz]; rfl
    · rw [if_neg hz]; rfl
  have hlen1 : (prependBoundary pp g0 (effArrays o? r? a? d?)).offs.length ≤
      (g0 :: u).length + 1 := by
    rw [hoffs1]
    by_cases hz : g0 = 0
    · rw [if_pos hz]; simp
    · rw [if_neg hz]; simp
  rw [appendBoundary]
  by_cases hMd : M ≠ du
  · rw [if_pos hMd]
    simp only
    refine ⟨?_, ?_, ?_, ?_⟩
    · rw [List.chain'_append]
      refine ⟨hchain1, List.chain'_singleton du, ?_⟩
      intro x hx y hy
      simp only [List.head?_cons, Option.mem_def, Option.some.injEq] at hy
      rw [hlast1] at hx
      simp only [Option.mem_def, Option.some.injEq] at hx
      subst hx hy
      exact hMdu
    · rw [head?_append_of_ne_nil]
      · exact hhead1
      · intro hc
        rw [hc] at hhead1
        simp at hhead1
    · exact getLast?_append_single _ _
    · rw [List.length_append]
      simp only [List.length_cons, List.length_singleton, List.length_nil]
      have := hlen1
      omega
  · rw [if_neg hMd]
    push_neg at hMd
    have hres : ∀ b : Bool, (if b = true then
        (⟨(prependBoundary pp g0 (effArrays o? r? a? d?)).offs,
          (prependBoundary pp g0 (effArrays o? r? a? d?)).rab.set
            ((prependBoundary pp g0 (effArrays o? r? a? d?)).rab.length - 1) (1/2),
          (prependBoundary pp g0 (effArrays o? r? a? d?)).azi,
          (prependBoundary pp g0 (effArrays o? r? a? d?)).det⟩ : Arrays)
      else prependBoundary pp g0 (effArrays o? r? a? d?)).offs =
        (prependBoundary pp g0 (effArrays o? r? a? d?)).offs := by
      intro b
      cases b <;> rfl
    rw [hres pp]
    subst hMd
    refine ⟨hchain1, hhead1, hlast1, ?_⟩
    calc (prependBoundary pp g0 (effArrays o? r? a? d?)).offs.length
        ≤ (g0 :: u).length + 1 := hlen1
      _ ≤ UPPER_BOUND_OFFSETS + 2 := by omega

/-- Witness for `c2_offsets_invariants` at a concrete sorted input. -/
theorem c2_offsets_invariants_witness :
    ([(0 : ℚ), 3/10, 7/10, 1] : List ℚ).Chain' (· ≤ ·) ∧
    ([(0 : ℚ), 3/10, 7/10, 1] : List ℚ).head? = some 0 ∧
    ([(0 : ℚ), 3/10, 7/10, 1] : List ℚ).getLast? = some 1 ∧
    ([(0 : ℚ), 3/10, 7/10, 1] : List ℚ).length ≤ UPPER_BOUND_OFFSETS + 2 := by
  have := c2_offsets_invariants 1 (some [3/10, 7/10]) (some [2, 3]) (some [4, 5])
    (some [6, 7]) false none
    ⟨1, [0, 3/10, 7/10, 1], [0, 2, 3, 0], [0, 4, 5, 0], [0, 6, 7, 0], false, none⟩
    (by
      rw [newDDSequence]
      norm_num [effArrays, prependBoundary, appendBoundary, UPPER_BOUND_OFFSETS])
    (by norm_num [effArrays, List.chain'_cons, List.chain'_singleton])
  simpa using this

theorem prepend_offs_cases (pp : Bool) (g0 : ℚ) (A : Arrays) :
    (prependBoundary pp g0 A).offs = if g0 = 0 then A.offs else 0 :: A.offs := by
  by_cases hz : g0 = 0 <;> cases pp <;> simp [prependBoundary, hz]

theorem append_offs_cases (pp : Bool) (du L : ℚ) (A : Arrays) :
    (appendBoundary pp du L A).offs = if L = du then A.offs else A.offs ++ [du] := by
  by_cases hL : L = du <;> cases pp <;> simp [appendBoundary, hL]

/-- Invariants every successful construction establishes, reused by the
idempotence proof. -/
theorem newDDSequence_ok_invariants {du : ℚ} {o? r? a? d? : Option (List ℚ)}
    {pp : Bool} {nm : Option String} {s : DDSequence}
    (h : newDDSequence du o? r? a? d? pp nm = .ok s) :
    0 < du ∧ s.duration = du ∧ s.pre_post_rotation = pp ∧ s.name = nm ∧
    s.offsets.head? = some 0 ∧ s.offsets.getLast? = some du ∧
    (∀ x ∈ s.offsets, 0 ≤ x ∧ x ≤ du) ∧
    s.rabi_rotations.length = s.offsets.length ∧
    s.azimuthal_angles.length = s.offsets.length ∧
    s.detuning_rotations.length = s.offsets.length := by
  obtain ⟨g0, u, M, A2, ht, hM, hA2, hdu, hlen, hbound, hguard, hlr, hla, hld, hs⟩ :=
    newDDSequence_ok h
  have hg0 : 0 ≤ g0 := (hbound g0 (by simp)).1
  have hMdu : M ≤ du := (hbound M (mem_of_getLast?_eq hM)).2
  have hoffs1 : (prependBoundary pp g0 (effArrays o? r? a? d?)).offs =
      if g0 = 0 then g0 :: u else 0 :: g0 :: u := by
    rw [prepend_offs_cases, ht]
  have hoffs2 : A2.offs = if M = du then (prependBoundary pp g0 (effArrays o? r? a? d?)).offs
      else (prependBoundary pp g0 (effArrays o? r? a? d?)).offs ++ [du] := by
    rw [hA2, append_offs_cases]
  have hmem : ∀ x ∈ A2.offs, 0 ≤ x ∧ x ≤ du := by
    intro x hx
    rw [hoffs2] at hx
    have hx1 : x ∈ (prependBoundary pp g0 (effArrays o? r? a? d?)).offs ∨ x = du := by
      by_cases hMd : M = du
      · rw [if_pos hMd] at hx; exact Or.inl hx
      · rw [if_neg hMd] at hx
        rcases List.mem_append.mp hx with hx | hx
        · exact Or.inl hx
        · exact Or.inr (by simpa using hx)
    rcases hx1 with hx1 | rfl
    · rw [hoffs1] at hx1
      by_cases hz : g0 = 0
      · rw [if_pos hz] at hx1
        exact hbound x hx1
      · rw [if_neg hz] at hx1
        rcases List.mem_cons.mp hx1 with rfl | hx1
        · exact ⟨le_refl 0, le_of_lt hdu⟩
        · exact hbound x hx1
    · exact ⟨le_of_lt hdu, le_refl _⟩
  have hhead : A2.offs.head? = some 0 := by
    rw [hoffs2, hoffs1]
    have hbase : (if g0 = 0 then g0 :: u else 0 :: g0 :: u).head? = some 0 := by
      by_cases hz : g0 = 0
      · rw [if_pos hz, hz]; rfl
      · rw [if_neg hz]; rfl
    by_cases hMd : M = du
    · rw [if_pos hMd]; exact hbase
    · rw [if_neg hMd]
      rw [head?_append_of_ne_nil]
      · exact hbase
      · by_cases hz : g0 = 0 <;> simp [hz]
  have hlast : A2.offs.getLast? = some du := by
    rw [hoffs2]
    by_cases hMd : M = du
    · rw [if_pos hMd, hoffs1]
      subst hMd
      by_cases hz : g0 = 0
      · rw [if_pos hz]; exact hM
      · rw [if_neg hz, getLast?_cons_of_ne_nil _ (by simp)]; exact hM
    · rw [if_neg hMd, getLast?_append_single]
  subst hs
  exact ⟨hdu, rfl, rfl, rfl, hhead, hlast, hmem, hlr, hla, hld⟩

/-- C7 counterexample: a construction from 10000 supplied offsets succeeds
and produces a sequence with 10002 offsets; re-running the constructor on
that sequence's own fields fails the maximum-offsets check (which is
applied to the supplied array before boundary insertion), so construction
is not idempotent as claimed. -/
theorem c7_idempotence_counterexample :
    newDDSequence 1 (some c7offsets) (some c7zeros) (some c7zeros) (some c7zeros)
      false none = .ok c7seq ∧
    newDDSequence 1 (some c7seq.offsets) (some c7seq.rabi_rotations)
      (some c7seq.azimuthal_angles) (some c7seq.detuning_rotations) false none =
      .error (.argumentsValueError
        "Number of offsets is above the allowed number of maximum offsets. ") := by
  have h10000 : (10000 : ℕ) = 9999 + 1 := by norm_num
  have hlen : c7offsets.length = 10000 := by
    rw [c7offsets, List.length_replicate]
  have hzlen : c7zeros.length = 10000 := by
    rw [c7zeros, List.length_replicate]
  have hhead : c7offsets.head? = some (1/2) := by
    rw [c7offsets, h10000, List.replicate_succ]; rfl
  have hlast : c7offsets.getLast? = some (1/2) := by
    rw [c7offsets, h10000]
    exact getLast?_replicate_succ 9999 _
  have hlenif : ¬ ((0 : ℚ) :: c7zeros ++ [0]).length ≠
      ((0 : ℚ) :: c7offsets ++ [1]).length := by
    rw [List.cons_append, List.cons_append, List.length_cons, List.length_cons,
      List.length_append, List.length_append, hzlen, hlen]
    exact fun hc => hc rfl
  constructor
  · rw [newDDSequence]
    have hany : (c7offsets.any fun x => decide (x < 0) || decide ((1 : ℚ) < x)) = false := by
      rw [c7offsets, any_replicate]
      norm_num
    simp only [effArrays, Option.getD_some]
    rw [if_neg (show ¬ (1 : ℚ) ≤ 0 by norm_num)]
    rw [if_neg (show ¬ UPPER_BOUND_OFFSETS < c7offsets.length by
      rw [hlen]; norm_num [UPPER_BOUND_OFFSETS])]
    rw [hany]
    rw [if_neg (show ¬ (false = true) from fun hc => Bool.noConfusion hc)]
    rw [hhead]
    dsimp only
    rw [if_neg (show ¬ (false = true ∧ (1 : ℚ)/2 = 0 ∧ c7zeros = [])
      from fun hc => Bool.noConfusion hc.1)]
    rw [prependBoundary]
    rw [if_pos (show (1 : ℚ)/2 ≠ 0 by norm_num)]
    dsimp only
    rw [show ((0 : ℚ) :: c7offsets).getLast? = some (1/2) by
      rw [getLast?_cons_of_ne_nil _ (by
        rw [c7offsets, h10000, List.replicate_succ]
        exact List.cons_ne_nil _ _), hlast]]
    dsimp only
    rw [if_neg (show ¬ (false = true ∧ (1 : ℚ)/2 = 1 ∧
      ((if false = true then (1 : ℚ)/2 else 0) :: c7zeros) = [])
      from fun hc => Bool.noConfusion hc.1)]
    rw [appendBoundary]
    rw [if_pos (show (1 : ℚ)/2 ≠ 1 by norm_num)]
    dsimp only
    rw [if_neg (show ¬ (false = true) from fun hc => Bool.noConfusion hc)]
    rw [if_neg hlenif, if_neg hlenif, if_neg hlenif]
    rfl
  · rw [newDDSequence]
    simp only [effArrays, Option.getD_some]
    rw [if_neg (show ¬ (1 : ℚ) ≤ 0 by norm_num)]
    rw [if_pos (show UPPER_BOUND_OFFSETS < c7seq.offsets.length by
      show UPPER_BOUND_OFFSETS < ((0 : ℚ) :: c7offsets ++ [1]).length
      rw [List.cons_append, List.length_cons, List.length_append, hlen,
        UPPER_BOUND_OFFSETS]
      norm_num)]

/-- C7 (amended): constructing a sequence from a successfully constructed
sequence's own fields yields the identical sequence, provided the
sequence's (already normalized) offsets array respects the maximum-offsets
bound; without that proviso idempotence fails, as
`c7_idempotence_counterexample` shows. -/
theorem c7_idempotent_construction (du : ℚ) (o? r? a? d? : Option (List ℚ))
    (pp : Bool) (nm : Option String) (s : DDSequence)
    (h : newDDSequence du o? r? a? d? pp nm = .ok s)
    (hsz : s.offsets.length ≤ UPPER_BOUND_OFFSETS) :
    newDDSequence du (some s.offsets) (some s.rabi_rotations)
      (some s.azimuthal_angles) (some s.detuning_rotations) pp nm = .ok s := by
  obtain ⟨hdu, hsdur, hspp, hsnm, hhead, hlast, hmem, hlr, hla, hld⟩ :=
    newDDSequence_ok_invariants h
  have hone : s.offsets ≠ [] := by
    intro hc
    rw [hc] at hhead
    simp at hhead
  have hrabne : s.rabi_rotations ≠ [] := by
    intro hc
    have := congrArg List.length hc
    rw [hlr] at this
    simp only [List.length_nil] at this
    exact hone (List.length_eq_zero.mp this)
  have hrabq : pp = true → s.rabi_rotations.head? = some (1/2) ∧
      s.rabi_rotations.getLast? = some (1/2) := by
    intro hpp
    subst hpp
    exact ok_rab_boundary_quarter du o? r? a? d? nm s h
  have hA1 : prependBoundary pp 0
      ⟨s.offsets, s.rabi_rotations, s.azimuthal_angles, s.detuning_rotations⟩ =
      ⟨s.offsets, s.rabi_rotations, s.azimuthal_angles, s.detuning_rotations⟩ := by
    cases hp : pp with
    | false => simp [prependBoundary]
    | true =>
      rw [prependBoundary]
      rw [if_neg (show ¬ (0 : ℚ) ≠ 0 from fun hc => hc rfl)]
      rw [if_pos rfl]
      dsimp only
      rw [set_zero_of_head? (hrabq hp).1]
  have hA2 : appendBoundary pp du du
      ⟨s.offsets, s.rabi_rotations, s.azimuthal_angles, s.detuning_rotations⟩ =
      ⟨s.offsets, s.rabi_rotations, s.azimuthal_angles, s.detuning_rotations⟩ := by
    cases hp : pp with
    | false => simp [appendBoundary]
    | true =>
      rw [appendBoundary]
      rw [if_neg (show ¬ du ≠ du from fun hc => hc rfl)]
      rw [if_pos rfl]
      dsimp only
      rw [set_last_of_getLast? (hrabq hp).2]
  rw [newDDSequence]
  simp only [effArrays, Option.getD_some]
  rw [if_neg (not_le.mpr hdu)]
  rw [if_neg (not_lt.mpr hsz)]
  have hany : (s.offsets.any fun x => decide (x < 0) || decide (du < x)) = false := by
    rw [List.any_eq_false]
    intro x hx
    have hb := hmem x hx
    simp only [Bool.or_eq_true, decide_eq_true_eq, not_or]
    exact ⟨not_lt.mpr hb.1, not_lt.mpr hb.2⟩
  rw [hany]
  rw [if_neg (show ¬ (false = true) from fun hc => Bool.noConfusion hc)]
  rw [hhead]
  dsimp only
  rw [if_neg (show ¬ (pp = true ∧ (0 : ℚ) = 0 ∧ s.rabi_rotations = [])
    from fun hc => hrabne hc.2.2)]
  rw [hA1]
  rw [hlast]
  dsimp only
  rw [if_neg (show ¬ (pp = true ∧ du = du ∧ s.rabi_rotations = [])
    from fun hc => hrabne hc.2.2)]
  rw [hA2]
  rw [if_neg (show ¬ s.rabi_rotations.length ≠ s.offsets.length
    from fun hc => hc hlr)]
  rw [if_neg (show ¬ s.azimuthal_angles.length ≠ s.offsets.length
    from fun hc => hc hla)]
  rw [if_neg (show ¬ s.detuning_rotations.length ≠ s.offsets.length
    from fun hc => hc hld)]
  obtain ⟨d0, o0, r0, a0, dt0, p0, n0⟩ := s
  simp only at hsdur hspp hsnm
  rw [hsdur, hspp, hsnm]

/-- Witness for `c7_idempotent_construction` at a small concrete input. -/
theorem c7_idempotent_construction_witness :
    newDDSequence 1 (some [0, 3/10, 7/10, 1]) (some [0, 2, 3, 0])
      (some [0, 4, 5, 0]) (some [0, 6, 7, 0]) false none =
      .ok ⟨1, [0, 3/10, 7/10, 1], [0, 2, 3, 0], [0, 4, 5, 0], [0, 6, 7, 0],
        false, none⟩ :=
  c7_idempotent_construction 1 (some [3/10, 7/10]) (some [2, 3]) (some [4, 5])
    (some [6, 7]) false none
    ⟨1, [0, 3/10, 7/10, 1], [0, 2, 3, 0], [0, 4, 5, 0], [0, 6, 7, 0], false, none⟩
    (by
      rw [newDDSequence]
      norm_num [effArrays, prependBoundary, appendBoundary, UPPER_BOUND_OFFSETS])
    (by norm_num [UPPER_BOUND_OFFSETS])

set_option maxRecDepth 20000 in
/-- C9: for every scheme identifier that is not one of the ten named
schemes, the dispatcher raises the argument-validation error (no other
outcome), and the error message lists all ten valid scheme names (each
name occurs in the message text). -/
theorem c9_unknown_scheme_rejected (s : String) (hs : s ∉ validSchemeNames) :
    newPredefinedDds s = .error (.argumentsValueError unknownSchemeMessage) ∧
    ∀ n ∈ validSchemeNames, List.IsInfix n.toList unknownSchemeMessage.toList := by
  constructor
  · simp only [validSchemeNames, List.mem_cons, List.not_mem_nil, or_false,
      not_or] at hs
    obtain ⟨h1, h2, h3, h4, h5, h6, h7, h8, h9, h10⟩ := hs
    rw [newPredefinedDds, if_neg h1, if_neg h2, if_neg h3, if_neg h4, if_neg h5,
      if_neg h6, if_neg h7, if_neg h8, if_neg h9, if_neg h10]
  · decide

/-- Witness for `c9_unknown_scheme_rejected` at the concrete unknown
scheme name "CDD". -/
theorem c9_unknown_scheme_rejected_witness :
    newPredefinedDds "CDD" = .error (.argumentsValueError unknownSchemeMessage) ∧
    ∀ n ∈ validSchemeNames, List.IsInfix n.toList unknownSchemeMessage.toList :=
  c9_unknown_scheme_rejected "CDD" (by decide)

theorem walshRelativeOffsets_one : walshRelativeOffsets 1 = [1/2] := by
  have hlog : Nat.log2 1 = 0 := by rw [Nat.log2]; norm_num
  rw [walshRelativeOffsets]
  norm_num [hlog, walshSampleGrid, List.range_succ, signSinPi]
  simp [List.filterMap_cons]

/-- C8: for every positive duration, the Walsh generator with
`paley_order = 1` produces the Spin-Echo pattern: a single transition at
the midpoint, so the constructed sequence has offsets
`[0, duration/2, duration]` and rabi rotations `[0, π, 0]` (in units of π:
`[0, 1, 0]`) with zero azimuthal and detuning arrays. -/
theorem c8_walsh_order_one_is_spin_echo (d : ℚ) (hd : 0 < d) :
    newWalshSingleAxisSequence d 1 =
      .ok ⟨d, [0, d/2, d], [0, 1, 0], [0, 0, 0], [0, 0, 0], false, none⟩ := by
  rw [newWalshSingleAxisSequence]
  rw [if_neg (not_le.mpr hd)]
  rw [if_neg (show ¬ (1 < 1 ∨ 2000 < 1) by norm_num)]
  have hoffs : (walshRelativeOffsets 1).map (fun x => d * x) = [d/2] := by
    rw [walshRelativeOffsets_one]
    simp only [List.map_cons, List.map_nil]
    norm_num
    ring
  simp only [hoffs]
  rw [newDDSequence]
  simp only [effArrays, Option.getD_some]
  rw [if_neg (not_le.mpr hd)]
  rw [if_neg (show ¬ UPPER_BOUND_OFFSETS < ([d/2] : List ℚ).length by
    rw [List.length_singleton]; norm_num [UPPER_BOUND_OFFSETS])]
  have h2 : (0 : ℚ) ≤ d/2 := by positivity
  have h3 : d/2 ≤ d := by linarith
  have hany : (([d/2] : List ℚ).any fun x => decide (x < 0) || decide (d < x)) = false := by
    simp only [List.any_cons, List.any_nil, Bool.or_false, Bool.or_eq_false_iff,
      decide_eq_false_iff_not, not_lt]
    exact ⟨h2, h3⟩
  rw [hany]
  rw [if_neg (show ¬ (false = true) from fun hc => Bool.noConfusion hc)]
  rw [show ([d/2] : List ℚ).head? = some (d/2) from rfl]
  dsimp only
  have hhalf : d/2 ≠ 0 := by positivity
  have hhalfd : d/2 ≠ d := by
    intro hc
    have : d = 0 := by linarith
    exact absurd this (ne_of_gt hd)
  rw [if_neg (show ¬ (false = true ∧ d/2 = 0 ∧
      (List.replicate ([d/2] : List ℚ).length (1 : ℚ)) = [])
    from fun hc => Bool.noConfusion hc.1)]
  rw [prependBoundary]
  rw [if_pos hhalf]
  dsimp only
  rw [show ((0 : ℚ) :: [d/2]).getLast? = some (d/2) from rfl]
  dsimp only
  rw [if_neg (show ¬ (false = true ∧ d/2 = d ∧
      ((if false = true then (1 : ℚ)/2 else 0) ::
        List.replicate ([d/2] : List ℚ).length (1 : ℚ)) = [])
    from fun hc => Bool.noConfusion hc.1)]
  rw [appendBoundary]
  rw [if_pos hhalfd]
  dsimp only
  rw [if_neg (show ¬ (false = true) from fun hc => Bool.noConfusion hc)]
  norm_num

/-- Witness for `c8_walsh_order_one_is_spin_echo` at duration 1. -/
theorem c8_walsh_order_one_is_spin_echo_witness :
    newWalshSingleAxisSequence 1 1 =
      .ok ⟨1, [0, 1/2, 1], [0, 1, 0], [0, 0, 0], [0, 0, 0], false, none⟩ := by
  have := c8_walsh_order_one_is_spin_echo 1 (by norm_num)
  simpa using this

theorem count_cumsum_eq_pulse_add_step (u : ℚ) (l : List ℕ) (acc v : ℚ) :
    (cumsumQFrom acc (l.map (fun c : ℕ => (c : ℚ) * u))).count v =
      pulseCountFrom u acc v l + stepCountFrom u acc v l := by
  induction l generalizing acc with
  | nil => rfl
  | cons c r ih =>
    simp only [List.map_cons, cumsumQFrom, pulseCountFrom, stepCountFrom]
    rw [List.count_cons, ih]
    by_cases hc : c = 0 <;> by_cases hv : acc + (c : ℚ) * u = v <;>
      split_ifs <;>
        simp_all [beq_iff_eq, Nat.cast_zero, zero_mul, add_zero] <;>
          omega

theorem stepCount_eq_zero_of_le (u : ℚ) (hu : 0 < u) (l : List ℕ) :
    ∀ acc v : ℚ, v ≤ acc → stepCountFrom u acc v l = 0 := by
  induction l with
  | nil => intro acc v _; rfl
  | cons c r ih =>
    intro acc v hv
    simp only [stepCountFrom]
    have hstep : acc ≤ acc + (c : ℚ) * u := by
      have : (0 : ℚ) ≤ (c : ℚ) * u := mul_nonneg (Nat.cast_nonneg c) (le_of_lt hu)
      linarith
    rw [ih (acc + (c : ℚ) * u) v (le_trans hv hstep)]
    by_cases hc : c = 0
    · simp [hc]
    · have hone : (1 : ℚ) ≤ (c : ℚ) := by
        exact_mod_cast Nat.one_le_iff_ne_zero.mpr hc
      have : v < acc + (c : ℚ) * u := by nlinarith
      have hne : ¬ (acc + (c : ℚ) * u = v) := by linarith
      simp [hne]

theorem stepCount_eq_one_of_mem (u : ℚ) (hu : 0 < u) (l : List ℕ) :
    ∀ acc v : ℚ, v ∈ cumsumQFrom acc (l.map (fun c : ℕ => (c : ℚ) * u)) →
      v = acc ∨ stepCountFrom u acc v l = 1 := by
  induction l with
  | nil => intro acc v hv; simp [cumsumQFrom] at hv
  | cons c r ih =>
    intro acc v hv
    simp only [List.map_cons, cumsumQFrom, List.mem_cons] at hv
    have hland : c ≠ 0 → v = acc + (c : ℚ) * u → stepCountFrom u acc v (c :: r) = 1 := by
      intro hc hveq
      simp only [stepCountFrom]
      rw [stepCount_eq_zero_of_le u hu r (acc + (c : ℚ) * u) v (le_of_eq hveq)]
      simp [hc, hveq.symm]
    rcases hv with hv | hv
    · by_cases hc : c = 0
      · subst hc
        simp only [Nat.cast_zero, zero_mul, add_zero] at hv
        exact Or.inl hv
      · exact Or.inr (hland hc hv)
    · rcases ih (acc + (c : ℚ) * u) v hv with hv2 | hv2
      · by_cases hc : c = 0
        · subst hc
          simp only [Nat.cast_zero, zero_mul, add_zero] at hv2
          exact Or.inl hv2
        · exact Or.inr (hland hc hv2)
      · refine Or.inr ?_
        simp only [stepCountFrom]
        rw [hv2]
        by_cases hcond : c ≠ 0 ∧ acc + (c : ℚ) * u = v
        · exfalso
          have := stepCount_eq_zero_of_le u hu r (acc + (c : ℚ) * u) v
            (le_of_eq hcond.2.symm)
          rw [this] at hv2
          exact one_ne_zero hv2.symm
        · simp [hcond]

theorem cumsum_mem_ge (u : ℚ) (hu : 0 ≤ u) (l : List ℕ) :
    ∀ acc v : ℚ, v ∈ cumsumQFrom acc (l.map (fun c : ℕ => (c : ℚ) * u)) → acc ≤ v := by
  induction l with
  | nil => intro acc v hv; simp [cumsumQFrom] at hv
  | cons c r ih =>
    intro acc v hv
    have hstep : acc ≤ acc + (c : ℚ) * u := by
      have : (0 : ℚ) ≤ (c : ℚ) * u := mul_nonneg (Nat.cast_nonneg c) hu
      linarith
    simp only [List.map_cons, cumsumQFrom, List.mem_cons] at hv
    rcases hv with rfl | hv
    · exact hstep
    · exact le_trans hstep (ih (acc + (c : ℚ) * u) v hv)

theorem concatenationX_head (n : ℕ) (hn : 1 ≤ n) :
    ∃ r, concatenationX n = 1 :: r := by
  match n, hn with
  | 1, _ => exact ⟨[0, 1, 0], rfl⟩
  | (m + 2), _ =>
    obtain ⟨r, hr⟩ := concatenationX_head (m + 1) (by omega)
    exact ⟨r ++ [0] ++ concatenationX (m + 1) ++ [0], by
      rw [concatenationX, hr]
      simp⟩

theorem mem_cumulative_positions_pos (d : ℚ) (hd : 0 < d) (n : ℕ) (hn : 1 ≤ n)
    (v : ℚ) (hv : v ∈ xCumulativePositions d n) : 0 < v := by
  have hu : 0 < d / 2 ^ n := by positivity
  obtain ⟨r, hr⟩ := concatenationX_head n hn
  rw [xCumulativePositions, hr] at hv
  simp only [List.map_cons, cumsumQFrom, List.mem_cons, Nat.cast_one, one_mul,
    zero_add] at hv
  rcases hv with rfl | hv
  · exact hu
  · have := cumsum_mem_ge (d / 2 ^ n) (le_of_lt hu) r (d / 2 ^ n) v hv
    linarith

/-- C3: for every duration > 0 and concatenation order ≥ 1, the surviving
offsets computed by the even-occurrence-count filter of the X-concatenated
generator are exactly the cumulative pulse positions whose merged pulse
multiplicity is odd (each cumulative position is hit exactly once by an
advancing step, so an even occurrence count in the cumulative sum array is
the same as an odd number of pulses placed at that position); the final
offsets are that list, with the last entry additionally dropped for odd
concatenation orders. -/
theorem c3_x_concatenated_odd_multiplicity (d : ℚ) (hd : 0 < d) (n : ℕ)
    (hn : 1 ≤ n) :
    xSurvivingOffsets d n = oddPulsePositions d n ∧
    xConcatenatedOffsets d n =
      (if n % 2 = 1 then (oddPulsePositions d n).dropLast
       else oddPulsePositions d n) := by
  have hu : 0 < d / 2 ^ n := by positivity
  have key : ∀ v ∈ xCumulativePositions d n,
      (decide ((xCumulativePositions d n).count v % 2 = 0)) =
      (decide (pulseCountFrom (d / 2 ^ n) 0 v (concatenationX n) % 2 = 1)) := by
    intro v hv
    have hcnt := count_cumsum_eq_pulse_add_step (d / 2 ^ n) (concatenationX n) 0 v
    have hstep : stepCountFrom (d / 2 ^ n) 0 v (concatenationX n) = 1 := by
      rcases stepCount_eq_one_of_mem (d / 2 ^ n) hu (concatenationX n) 0 v hv
        with h0 | h1
      · exfalso
        have := mem_cumulative_positions_pos d hd n hn v hv
        rw [h0] at this
        exact lt_irrefl 0 this
      · exact h1
    rw [show (xCumulativePositions d n).count v =
      (cumsumQFrom 0 ((concatenationX n).map (fun c : ℕ => (c : ℚ) * (d / 2 ^ n)))).count v
      from rfl]
    rw [hcnt, hstep, decide_eq_decide]
    omega
  have hfilters : xSurvivingOffsets d n = oddPulsePositions d n := by
    rw [xSurvivingOffsets, oddPulsePositions, npUniqueEvenCount]
    apply List.filter_congr
    intro v hv
    apply key
    have hmem : v ∈ (xCumulativePositions d n).dedup :=
      (List.perm_insertionSort (· ≤ ·) ((xCumulativePositions d n).dedup)).mem_iff.mp hv
    exact List.mem_dedup.mp hmem
  exact ⟨hfilters, by rw [xConcatenatedOffsets, hfilters]⟩

set_option maxHeartbeats 1000000 in
/-- Witness for `c3_x_concatenated_odd_multiplicity` at duration 1 and
order 2: both filtered lists evaluate to `[1/4, 3/4]`. -/
theorem c3_x_concatenated_odd_multiplicity_witness :
    (xSurvivingOffsets 1 2 = oddPulsePositions 1 2 ∧
      xConcatenatedOffsets 1 2 =
        (if 2 % 2 = 1 then (oddPulsePositions 1 2).dropLast
         else oddPulsePositions 1 2)) ∧
    xSurvivingOffsets 1 2 = [1/4, 3/4] := by
  constructor
  · exact c3_x_concatenated_odd_multiplicity 1 (by norm_num) 2 (by norm_num)
  · have hpat : concatenationX 2 = [1, 0, 1, 0, 0, 1, 0, 1, 0, 0] := rfl
    have hcum : xCumulativePositions 1 2 =
        [1/4, 1/4, 1/2, 1/2, 1/2, 3/4, 3/4, 1, 1, 1] := by
      rw [xCumulativePositions, hpat]
      norm_num [cumsumQFrom]
    rw [xSurvivingOffsets, npUniqueEvenCount, hcum]
    have hded : ([1/4, 1/4, 1/2, 1/2, 1/2, 3/4, 3/4, 1, 1, 1] : List ℚ).dedup =
        [1/4, 1/2, 3/4, 1] := by
      norm_num [List.dedup_cons_of_mem, List.dedup_cons_of_not_mem]
    rw [hded]
    have hsort : ([1/4, 1/2, 3/4, 1] : List ℚ).insertionSort (· ≤ ·) =
        [1/4, 1/2, 3/4, 1] := by
      norm_num [List.insertionSort, List.orderedInsert]
    rw [hsort]
    norm_num [List.filter_cons, List.count_cons, beq_iff_eq]

theorem dropLast_append_of_ne_nil {α : Type} (a b : List α) (hb : b ≠ []) :
    (a ++ b).dropLast = a ++ b.dropLast := by
  induction a with
  | nil => rfl
  | cons x t ih =>
    rw [List.cons_append, List.dropLast_cons_of_ne_nil, ih, List.cons_append]
    intro hc
    rcases List.append_eq_nil.mp hc with ⟨_, h2⟩
    exact hb h2

theorem setLast_append (a b : List ℤ) (v : ℤ) (hb : b ≠ []) :
    setLast (a ++ b) v = a ++ setLast b v := by
  rw [setLast, setLast, dropLast_append_of_ne_nil a b hb, List.append_assoc]

theorem getLast?_append_of_ne_nil {α : Type} (a b : List α) (hb : b ≠ []) :
    (a ++ b).getLast? = b.getLast? := by
  induction a with
  | nil => rfl
  | cons x t ih =>
    rw [List.cons_append, getLast?_cons_of_ne_nil, ih]
    intro hx
    exact hb (List.append_eq_nil.mp hx).2

/-- Structure of the recursion for orders at least 2: with `c` the pattern
one order lower, `R := c.dropLast ++ [-3]` and `P := c.dropLast`, the next
pattern is `R ++ P ++ R ++ P` when `c` ends in `-2` and
`R ++ P ++ R ++ c ++ [-2]` otherwise. -/
theorem concatenationXY_decomposition (n : ℕ) (hc : concatenationXY (n + 1) ≠ []) :
    concatenationXY (n + 2) =
      (if (concatenationXY (n + 1)).getLast? = some (-2)
       then (setLast (concatenationXY (n + 1)) (-3)) ++
         (concatenationXY (n + 1)).dropLast ++
         (setLast (concatenationXY (n + 1)) (-3)) ++
         (concatenationXY (n + 1)).dropLast
       else (setLast (concatenationXY (n + 1)) (-3)) ++
         (concatenationXY (n + 1)).dropLast ++
         (setLast (concatenationXY (n + 1)) (-3)) ++
         concatenationXY (n + 1) ++ [-2]) := by
  rw [concatenationXY]
  have hdrop1 : ((concatenationXY (n + 1) ++ [-1]).dropLast) = concatenationXY (n + 1) :=
    dropLast_append_single _ _
  dsimp only
  rw [hdrop1]
  set c := concatenationXY (n + 1) with hcdef
  set R := setLast c (-3) with hR
  have hs2a : ((R ++ c ++ [-2]).dropLast) = R ++ c := by
    rw [List.append_assoc, dropLast_append_of_ne_nil R (c ++ [-2]) (by simp),
      dropLast_append_single]
  have hs2 : (((R ++ c ++ [-2]).dropLast).dropLast) = R ++ c.dropLast := by
    rw [hs2a, dropLast_append_of_ne_nil R c hc]
  rw [hs2]
  have hs3a : ((R ++ c.dropLast ++ c ++ [-1]).dropLast) = R ++ c.dropLast ++ c :=
    dropLast_append_single _ _
  rw [hs3a]
  have hPc : c.dropLast ++ c ≠ [] := by
    intro hx
    exact hc (List.append_eq_nil.mp hx).2
  have hs3 : setLast (R ++ c.dropLast ++ c) (-3) = R ++ c.dropLast ++ R := by
    rw [List.append_assoc, setLast_append R (c.dropLast ++ c) _ hPc,
      setLast_append c.dropLast c _ hc, ← hR, ← List.append_assoc]
  rw [hs3]
  set P := c.dropLast with hP
  have hdrop : ((R ++ P ++ R ++ c ++ [-2]).dropLast) = R ++ P ++ R ++ c :=
    dropLast_append_single _ _
  have hglast : ((R ++ P ++ R ++ c ++ [-2]).dropLast).getLast? = c.getLast? := by
    rw [hdrop, getLast?_append_of_ne_nil _ c hc]
  by_cases hlast : c.getLast? = some (-2)
  · rw [if_pos hlast]
    have h1 : (R ++ P ++ R ++ c ++ [-2]).getLast? = some (-2) :=
      getLast?_append_single _ _
    rw [if_pos ⟨h1, hglast.trans hlast⟩]
    rw [hdrop, dropLast_append_of_ne_nil _ c hc]
  · rw [if_neg hlast]
    rw [if_neg (fun hcon => hlast (hglast.symm.trans hcon.2))]

theorem dropLast_cons_of_ne_nil2 {α : Type} (a : α) {l : List α} (h : l ≠ []) :
    (a :: l).dropLast = a :: l.dropLast :=
  List.dropLast_cons_of_ne_nil h

/-- Basic structure of the XY pattern, for every order at least 1: it
starts with `1`, ends with `[1, -1, 1, -2]` at odd orders and `[1, -1, 1]`
at even orders, and contains at least four `1` entries. -/
theorem concatenationXY_facts : ∀ n : ℕ, 1 ≤ n →
    (∃ r, concatenationXY n = 1 :: r) ∧
    (n % 2 = 1 → ∃ p, concatenationXY n = p ++ [1, -1, 1, -2]) ∧
    (n % 2 = 0 → ∃ p, concatenationXY n = p ++ [1, -1, 1]) ∧
    4 ≤ (concatenationXY n).count 1 := by
  intro n
  induction n with
  | zero => omega
  | succ m ih =>
    intro _
    match m, ih with
    | 0, _ =>
      refine ⟨⟨[-1, 1, -2, 1, -1, 1, -2], rfl⟩, ?_, ?_, ?_⟩
      · intro _
        exact ⟨[1, -1, 1, -2], rfl⟩
      · intro h
        omega
      · decide
    | (k + 1), ih =>
      obtain ⟨⟨r, hr⟩, hodd, heven, hcount⟩ := ih (by omega)
      have hc : concatenationXY (k + 1) ≠ [] := by
        rw [hr]; exact List.cons_ne_nil _ _
      have hdec := concatenationXY_decomposition k hc
      by_cases hpar : (k + 1) % 2 = 1
      · obtain ⟨p, hp⟩ := hodd hpar
        have hplist : ([1, -1, 1, -2] : List ℤ) = [1, -1, 1] ++ [-2] := rfl
        have hlastc : (concatenationXY (k + 1)).getLast? = some (-2) := by
          rw [hp, hplist, ← List.append_assoc, getLast?_append_single]
        have hPdrop : (concatenationXY (k + 1)).dropLast = p ++ [1, -1, 1] := by
          rw [hp, hplist, ← List.append_assoc, dropLast_append_single]
        have hrne : r ≠ [] := by
          intro hcon
          rw [hcon] at hr
          have := congrArg List.length hr
          rw [hp] at this
          simp [List.length_append] at this
        rw [hdec, if_pos hlastc]
        set c := concatenationXY (k + 1) with hcdef
        set R := setLast c (-3) with hRdef
        have hRhead : R = 1 :: (r.dropLast ++ [-3]) := by
          rw [hRdef, setLast, hr, dropLast_cons_of_ne_nil2 1 hrne, List.cons_append]
        refine ⟨?_, ?_, ?_, ?_⟩
        · exact ⟨r.dropLast ++ [-3] ++ c.dropLast ++ R ++ c.dropLast, by
            rw [hRhead]; simp [List.append_assoc]⟩
        · intro hcon
          omega
        · intro _
          refine ⟨R ++ c.dropLast ++ R ++ p, ?_⟩
          rw [hPdrop]
          simp [List.append_assoc]
        · rw [List.count_append]
          have h1 : 4 ≤ (c.dropLast).count 1 := by
            have : c.count 1 = (c.dropLast).count 1 := by
              rw [hPdrop, hp, hplist, ← List.append_assoc, List.count_append]
              simp
            omega
          omega
      · have hpar2 : (k + 1) % 2 = 0 := by omega
        obtain ⟨p, hp⟩ := heven hpar2
        have hlastc : (concatenationXY (k + 1)).getLast? = some 1 := by
          rw [hp, show ([1, -1, 1] : List ℤ) = [1, -1] ++ [1] from rfl,
            ← List.append_assoc, getLast?_append_single]
        have hlastne : ¬ (concatenationXY (k + 1)).getLast? = some (-2) := by
          rw [hlastc]
          intro hcon
          simp at hcon
        have hrne : r ≠ [] := by
          intro hcon
          rw [hcon] at hr
          have := congrArg List.length hr
          rw [hp] at this
          simp [List.length_append] at this
        rw [hdec, if_neg hlastne]
        set c := concatenationXY (k + 1) with hcdef
        set R := setLast c (-3) with hRdef
        have hRhead : R = 1 :: (r.dropLast ++ [-3]) := by
          rw [hRdef, setLast, hr, dropLast_cons_of_ne_nil2 1 hrne, List.cons_append]
        refine ⟨?_, ?_, ?_, ?_⟩
        · exact ⟨r.dropLast ++ [-3] ++ c.dropLast ++ R ++ c ++ [-2], by
            rw [hRhead]; simp [List.append_assoc]⟩
        · intro _
          refine ⟨R ++ c.dropLast ++ R ++ p, ?_⟩
          rw [hp]
          simp [List.append_assoc]
        · intro hcon
          omega
        · rw [List.count_append, List.count_append]
          have : 4 ≤ c.count 1 := hcount
          omega

theorem npUniqueEvenCount_chain_lt (l : List ℚ) :
    (npUniqueEvenCount l).Chain' (· < ·) := by
  rw [npUniqueEvenCount]
  have hnd : (l.dedup.insertionSort (· ≤ ·)).Nodup :=
    ((List.perm_insertionSort (· ≤ ·) l.dedup).nodup_iff).mpr (List.nodup_dedup l)
  have hsorted : (l.dedup.insertionSort (· ≤ ·)).Sorted (· ≤ ·) :=
    List.sorted_insertionSort (· ≤ ·) l.dedup
  have hlt : (l.dedup.insertionSort (· ≤ ·)).Pairwise (· < ·) := by
    have := List.Pairwise.and hsorted hnd
    exact this.imp (fun hab => lt_of_le_of_ne hab.1 hab.2)
  rw [List.chain'_iff_pairwise]
  exact hlt.sublist (List.filter_sublist _)

theorem mem_npUniqueEvenCount {l : List ℚ} {x : ℚ} :
    x ∈ npUniqueEvenCount l ↔ x ∈ l ∧ l.count x % 2 = 0 := by
  rw [npUniqueEvenCount, List.mem_filter,
    (List.perm_insertionSort (· ≤ ·) l.dedup).mem_iff, List.mem_dedup,
    decide_eq_true_eq]

theorem pulseCountFrom_append (u : ℚ) (a b : List ℕ) : ∀ (acc v : ℚ),
    pulseCountFrom u acc v (a ++ b) =
      pulseCountFrom u acc v a + pulseCountFrom u (acc + (a.sum : ℚ) * u) v b := by
  induction a with
  | nil => intro acc v; simp [pulseCountFrom]
  | cons c r ih =>
    intro acc v
    simp only [List.cons_append, pulseCountFrom, List.append_eq]
    rw [ih (acc + (c : ℚ) * u) v]
    have : acc + (c : ℚ) * u + ((r.sum : ℚ)) * u =
        acc + (((c :: r).sum : ℚ)) * u := by
      push_cast [List.sum_cons]
      ring
    rw [this]
    omega

theorem pulseCountFrom_eq_zero_of_gt (u : ℚ) (hu : 0 ≤ u) (l : List ℕ) :
    ∀ (acc v : ℚ), acc + (l.sum : ℚ) * u < v → pulseCountFrom u acc v l = 0 := by
  induction l with
  | nil => intro acc v _; rfl
  | cons c r ih =>
    intro acc v hv
    have hsum : acc + (c : ℚ) * u + ((r.sum : ℚ)) * u =
        acc + (((c :: r).sum : ℚ)) * u := by
      push_cast [List.sum_cons]
      ring
    simp only [pulseCountFrom]
    rw [ih (acc + (c : ℚ) * u) v (by rw [hsum]; exact hv)]
    have hacc : acc ≤ acc + (((c :: r).sum : ℚ)) * u := by
      have : (0 : ℚ) ≤ (((c :: r).sum : ℚ)) * u :=
        mul_nonneg (Nat.cast_nonneg _) hu
      linarith
    have : ¬ (c = 0 ∧ acc = v) := by
      rintro ⟨_, rfl⟩
      exact absurd hv (not_lt.mpr hacc)
    simp [this]

theorem cumsumQFrom_append (a b : List ℚ) : ∀ acc : ℚ,
    cumsumQFrom acc (a ++ b) =
      cumsumQFrom acc a ++ cumsumQFrom (acc + a.sum) b := by
  induction a with
  | nil => intro acc; simp [cumsumQFrom]
  | cons x r ih =>
    intro acc
    simp only [List.cons_append, cumsumQFrom, List.append_eq, ih, List.sum_cons]
    rw [← add_assoc]

theorem sum_map_cast_mul (u : ℚ) (l : List ℕ) :
    (l.map (fun c : ℕ => (c : ℚ) * u)).sum = (l.sum : ℚ) * u := by
  induction l with
  | nil => simp
  | cons c r ih =>
    simp only [List.map_cons, List.sum_cons, ih]
    push_cast
    ring

theorem streamSteps_append (a b : List ℤ) (d1 d2 m : ℤ) :
    streamSteps (a ++ b) d1 d2 m = streamSteps a d1 d2 m ++ streamSteps b d1 d2 m := by
  rw [streamSteps, streamSteps, streamSteps, List.filter_append, List.filter_append,
    List.map_append]

theorem streamSteps_sum (d1 d2 m : ℤ) (h1 : d1 ≠ 1) (h2 : d2 ≠ 1) (h3 : m ≠ 1)
    (h21 : d2 ≠ d1) (hm1 : m ≠ d1) (hm2 : m ≠ d2) :
    ∀ cum : List ℤ, (∀ x ∈ cum, x = 1 ∨ x = d1 ∨ x = d2 ∨ x = m) →
      (streamSteps cum d1 d2 m).sum = cum.count 1 := by
  intro cum
  induction cum with
  | nil => intro _; rfl
  | cons x r ih =>
    intro hvals
    have hr := ih (fun y hy => hvals y (List.mem_cons_of_mem x hy))
    rcases hvals x (List.mem_cons_self x r) with rfl | rfl | rfl | rfl
    · rw [streamSteps] at hr ⊢
      rw [List.filter_cons_of_pos (by simp [Ne.symm h1]),
        List.filter_cons_of_pos (by simp [Ne.symm h2]),
        List.map_cons, if_neg (Ne.symm h3), List.sum_cons, hr, List.count_cons]
      simp only [beq_self_eq_true, if_true, if_pos rfl]
      omega
    · rw [streamSteps] at hr ⊢
      rw [List.filter_cons_of_neg (by simp), List.count_cons, hr]
      simp [h1]
    · rw [streamSteps] at hr ⊢
      rw [List.filter_cons_of_pos (by simp [h21]),
        List.filter_cons_of_neg (by simp), List.count_cons, hr]
      simp [h2]
    · rw [streamSteps] at hr ⊢
      rw [List.filter_cons_of_pos (by simp [hm1]),
        List.filter_cons_of_pos (by simp [hm2]),
        List.map_cons, if_pos rfl, List.sum_cons, hr, List.count_cons]
      simp [h3]

/-- Marker values occurring in the XY pattern. -/
theorem concatenationXY_values : ∀ n : ℕ, ∀ x ∈ concatenationXY n,
    x = 1 ∨ x = -1 ∨ x = -2 ∨ x = -3 := by
  intro n
  induction n with
  | zero => intro x hx; simp [concatenationXY] at hx
  | succ m ih =>
    match m, ih with
    | 0, _ =>
      intro x hx
      rw [concatenationXY] at hx
      fin_cases hx <;> simp
    | (k + 1), ih =>
      obtain ⟨⟨r, hr⟩, _, _, _⟩ := concatenationXY_facts (k + 1) (by omega)
      have hc : concatenationXY (k + 1) ≠ [] := by
        rw [hr]; exact List.cons_ne_nil _ _
      have hdec := concatenationXY_decomposition k hc
      intro x hx
      rw [hdec] at hx
      have hmemP : ∀ y ∈ (concatenationXY (k + 1)).dropLast,
          y = 1 ∨ y = -1 ∨ y = -2 ∨ y = -3 :=
        fun y hy => ih y ((List.dropLast_sublist _).mem hy)
      have hmemR : ∀ y ∈ setLast (concatenationXY (k + 1)) (-3),
          y = 1 ∨ y = -1 ∨ y = -2 ∨ y = -3 := by
        intro y hy
        rw [setLast, List.mem_append] at hy
        rcases hy with hy | hy
        · exact hmemP y hy
        · simp at hy
          simp [hy]
      split at hx
      · simp only [List.append_assoc, List.mem_append] at hx
        rcases hx with hx | hx | hx | hx
        · exact hmemR x hx
        · exact hmemP x hx
        · exact hmemR x hx
        · exact hmemP x hx
      · simp only [List.append_assoc, List.mem_append] at hx
        rcases hx with hx | hx | hx | hx | hx
        · exact hmemR x hx
        · exact hmemP x hx
        · exact hmemR x hx
        · exact ih x hx
        · simp at hx
          simp [hx]

theorem pulseCountFrom_ne_zero_split {u : ℚ} {l r : List ℕ} {acc v w : ℚ}
    (hw : acc + (l.sum : ℚ) * u = w)
    (h : pulseCountFrom u acc v (l ++ r) ≠ 0) :
    pulseCountFrom u acc v l ≠ 0 ∨ pulseCountFrom u w v r ≠ 0 := by
  rw [pulseCountFrom_append, hw] at h
  omega

theorem pulseCountFrom_single_zero_ne {u B v : ℚ}
    (h : pulseCountFrom u B v [0] ≠ 0) : B = v := by
  by_contra hne
  exact h (by simp [pulseCountFrom, hne])

theorem pulseCountFrom_append_single_one (u : ℚ) (a : List ℕ) (acc v : ℚ) :
    pulseCountFrom u acc v (a ++ [1]) = pulseCountFrom u acc v a := by
  rw [pulseCountFrom_append]
  simp [pulseCountFrom]

set_option maxHeartbeats 1600000 in
/-- Every detuning pulse of the XY pattern sits at a cumulative position
at most two advancing steps short of the final position: the frame markers
`-3` produced by the recursion always land strictly before the closing
`[1, -1, 1]` tail of the pattern. -/
theorem xy_detuning_pulse_bound : ∀ n : ℕ, 1 ≤ n → ∀ u : ℚ, 0 ≤ u → ∀ acc v : ℚ,
    pulseCountFrom u acc v (streamSteps (concatenationXY n) (-2) (-1) (-3)) ≠ 0 →
    v ≤ acc + (((concatenationXY n).count 1 : ℚ) - 2) * u := by
  intro n
  induction n with
  | zero => omega
  | succ m ih =>
    match m, ih with
    | 0, _ =>
      intro _ u hu acc v hpc
      exfalso
      apply hpc
      have hbase : streamSteps (concatenationXY (0 + 1)) (-2) (-1) (-3) =
          [1, 1, 1, 1] := rfl
      rw [hbase]
      simp [pulseCountFrom]
    | (k + 1), ih =>
      intro _ u hu acc v hpc
      obtain ⟨⟨r, hr⟩, hodd, heven, hcount⟩ := concatenationXY_facts (k + 1) (by omega)
      have hc : concatenationXY (k + 1) ≠ [] := by
        rw [hr]; exact List.cons_ne_nil _ _
      have hdec := concatenationXY_decomposition k hc
      have hvals := concatenationXY_values (k + 1)
      set c := concatenationXY (k + 1) with hcdef
      set T : ℚ := ((c.count 1 : ℕ) : ℚ) with hT
      have hT4 : (4 : ℚ) ≤ T := by
        rw [hT]; exact_mod_cast hcount
      have hTu : (0 : ℚ) ≤ T * u := mul_nonneg (by linarith) hu
      have hT4u : 4 * u ≤ T * u := mul_le_mul_of_nonneg_right hT4 hu
      have hIH : ∀ b w : ℚ,
          pulseCountFrom u b w (streamSteps c (-2) (-1) (-3)) ≠ 0 →
          w ≤ b + (T - 2) * u := fun b w h => ih (by omega) u hu b w h
      have hsumc : (streamSteps c (-2) (-1) (-3)).sum = c.count 1 :=
        streamSteps_sum (-2) (-1) (-3) (by decide) (by decide) (by decide)
          (by decide) (by decide) (by decide) c
          (fun x hx => (hvals x hx).imp id (fun h => h.elim
            (fun h1 => Or.inr (Or.inl h1))
            (fun h2 => h2.elim (fun h1 => Or.inl h1)
              (fun h1 => Or.inr (Or.inr h1)))))
      by_cases hpar : (k + 1) % 2 = 1
      · obtain ⟨p, hp⟩ := hodd hpar
        have hlastc : c.getLast? = some (-2) := by
          rw [hp, show ([1, -1, 1, -2] : List ℤ) = [1, -1, 1] ++ [-2] from rfl,
            ← List.append_assoc, getLast?_append_single]
        have hPdrop : c.dropLast = p ++ [1, -1, 1] := by
          rw [hp, show ([1, -1, 1, -2] : List ℤ) = [1, -1, 1] ++ [-2] from rfl,
            ← List.append_assoc, dropLast_append_single]
        set dP := streamSteps c.dropLast (-2) (-1) (-3) with hdPdef
        have hdPc : dP = streamSteps c (-2) (-1) (-3) := by
          rw [hdPdef, hPdrop, hp, streamSteps_append, streamSteps_append]
          rfl
        have hdPsum : ((dP.sum : ℕ) : ℚ) = T := by
          rw [hdPc, hsumc, hT]
        have hIHP : ∀ b w : ℚ, pulseCountFrom u b w dP ≠ 0 →
            w ≤ b + (T - 2) * u := by
          intro b w h
          exact hIH b w (by rw [← hdPc]; exact h)
        have hL : streamSteps (concatenationXY (k + 2)) (-2) (-1) (-3)
            = dP ++ [0] ++ dP ++ (dP ++ [0]) ++ dP := by
          rw [hdec, if_pos hlastc, setLast]
          simp only [streamSteps_append]
          rw [show streamSteps [-3] (-2) (-1) (-3) = [0] from rfl, ← hdPdef]
        have hcp : c.count 1 = p.count 1 + 2 := by
          rw [hp, List.count_append]
          rfl
        have hPcnt : (c.dropLast).count 1 = p.count 1 + 2 := by
          rw [hPdrop, List.count_append]
          rfl
        have hTnew : ((concatenationXY (k + 2)).count 1 : ℚ) = 4 * T := by
          rw [hdec, if_pos hlastc, setLast]
          simp only [List.count_append]
          rw [hPcnt, show (([-3] : List ℤ).count 1) = 0 from rfl, hT, hcp]
          push_cast
          ring
        rw [hTnew]
        rw [hL] at hpc
        rcases pulseCountFrom_ne_zero_split (w := acc + (T + T + T) * u)
            (by
              rw [List.sum_append, List.sum_append, List.sum_append,
                show ([0] : List ℕ).sum = 0 from rfl, Nat.add_zero,
                Nat.cast_add, Nat.cast_add, hdPsum]) hpc with h1 | h1
        · rcases pulseCountFrom_ne_zero_split (w := acc + (T + T) * u)
              (by
                rw [List.sum_append, List.sum_append,
                  show ([0] : List ℕ).sum = 0 from rfl, Nat.add_zero,
                  Nat.cast_add, hdPsum]) h1 with h2 | h2
          · rcases pulseCountFrom_ne_zero_split (w := acc + T * u)
                (by
                  rw [List.sum_append, show ([0] : List ℕ).sum = 0 from rfl,
                    Nat.add_zero, hdPsum]) h2 with h3 | h3
            · rcases pulseCountFrom_ne_zero_split (w := acc + T * u)
                  (by rw [hdPsum]) h3 with h4 | h4
              · have hle := hIHP _ _ h4
                nlinarith [hTu, hT4u, hu]
              · have hbv := pulseCountFrom_single_zero_ne h4
                nlinarith [hTu, hT4u, hu]
            · have hle := hIHP _ _ h3
              nlinarith [hTu, hT4u, hu]
          · rcases pulseCountFrom_ne_zero_split (w := acc + (T + T) * u + T * u)
                (by rw [hdPsum]) h2 with h3 | h3
            · have hle := hIHP _ _ h3
              nlinarith [hTu, hT4u, hu]
            · have hbv := pulseCountFrom_single_zero_ne h3
              nlinarith [hTu, hT4u, hu]
        · have hle := hIHP _ _ h1
          nlinarith [hTu, hT4u, hu]
      · have hpar2 : (k + 1) % 2 = 0 := by omega
        obtain ⟨p, hp⟩ := heven hpar2
        have hlastc1 : c.getLast? = some 1 := by
          rw [hp, show ([1, -1, 1] : List ℤ) = [1, -1] ++ [1] from rfl,
            ← List.append_assoc, getLast?_append_single]
        have hlastne : ¬ c.getLast? = some (-2) := by
          rw [hlastc1]
          intro hcon
          simp at hcon
        have hPdrop : c.dropLast = p ++ [1, -1] := by
          rw [hp, show ([1, -1, 1] : List ℤ) = [1, -1] ++ [1] from rfl,
            ← List.append_assoc, dropLast_append_single]
        set dP := streamSteps c.dropLast (-2) (-1) (-3) with hdPdef
        have hdsc : streamSteps c (-2) (-1) (-3) = dP ++ [1] := by
          rw [hdPdef, hPdrop, hp, streamSteps_append, streamSteps_append,
            show streamSteps [1, -1, 1] (-2) (-1) (-3) = [1, 1] from rfl,
            show streamSteps [1, -1] (-2) (-1) (-3) = [1] from rfl]
          simp
        have hdPsum : ((dP.sum : ℕ) : ℚ) = T - 1 := by
          have h1 : dP.sum + 1 = c.count 1 := by
            have h2 := hsumc
            rw [hdsc, List.sum_append] at h2
            simpa using h2
          rw [hT]
          push_cast [← h1]
          ring
        have hIHP : ∀ b w : ℚ, pulseCountFrom u b w dP ≠ 0 →
            w ≤ b + (T - 2) * u := by
          intro b w h
          apply hIH b w
          rw [hdsc, pulseCountFrom_append_single_one]
          exact h
        have hL : streamSteps (concatenationXY (k + 2)) (-2) (-1) (-3)
            = dP ++ [0] ++ dP ++ (dP ++ [0]) ++ (dP ++ [1]) := by
          rw [hdec, if_neg hlastne, setLast]
          simp only [streamSteps_append]
          rw [show streamSteps [-3] (-2) (-1) (-3) = [0] from rfl,
            show streamSteps [-2] (-2) (-1) (-3) = ([] : List ℕ) from rfl,
            List.append_nil, hdsc, ← hdPdef]
        have hcp : c.count 1 = p.count 1 + 2 := by
          rw [hp, List.count_append]
          rfl
        have hPcnt : (c.dropLast).count 1 = p.count 1 + 1 := by
          rw [hPdrop, List.count_append]
          rfl
        have hTnew : ((concatenationXY (k + 2)).count 1 : ℚ) = 4 * T - 3 := by
          rw [hdec, if_neg hlastne, setLast]
          simp only [List.count_append]
          rw [hPcnt, show (([-3] : List ℤ).count 1) = 0 from rfl,
            show (([-2] : List ℤ).count 1) = 0 from rfl, hT, hcp]
          push_cast
          ring
        rw [hTnew]
        rw [hL] at hpc
        rcases pulseCountFrom_ne_zero_split
            (w := acc + (T - 1 + (T - 1) + (T - 1)) * u)
            (by
              rw [List.sum_append, List.sum_append, List.sum_append,
                show ([0] : List ℕ).sum = 0 from rfl, Nat.add_zero,
                Nat.cast_add, Nat.cast_add, hdPsum]) hpc with h1 | h1
        · rcases pulseCountFrom_ne_zero_split (w := acc + (T - 1 + (T - 1)) * u)
              (by
                rw [List.sum_append, List.sum_append,
                  show ([0] : List ℕ).sum = 0 from rfl, Nat.add_zero,
                  Nat.cast_add, hdPsum]) h1 with h2 | h2
          · rcases pulseCountFrom_ne_zero_split (w := acc + (T - 1) * u)
                (by
                  rw [List.sum_append, show ([0] : List ℕ).sum = 0 from rfl,
                    Nat.add_zero, hdPsum]) h2 with h3 | h3
            · rcases pulseCountFrom_ne_zero_split (w := acc + (T - 1) * u)
                  (by rw [hdPsum]) h3 with h4 | h4
              · have hle := hIHP _ _ h4
                nlinarith [hTu, hT4u, hu]
              · have hbv := pulseCountFrom_single_zero_ne h4
                nlinarith [hTu, hT4u, hu]
            · have hle := hIHP _ _ h3
              nlinarith [hTu, hT4u, hu]
          · rcases pulseCountFrom_ne_zero_split
                (w := acc + (T - 1 + (T - 1)) * u + (T - 1) * u)
                (by rw [hdPsum]) h2 with h3 | h3
            · have hle := hIHP _ _ h3
              nlinarith [hTu, hT4u, hu]
            · have hbv := pulseCountFrom_single_zero_ne h3
              nlinarith [hTu, hT4u, hu]
        · have hle := hIH _ _ (by rw [hdsc]; exact h1)
          nlinarith [hTu, hT4u, hu]

theorem rabi_top_mem_aux (u : ℚ) (hu : 0 < u) (p cum : List ℤ)
    (hvals : ∀ x ∈ p, x = 1 ∨ x = -1 ∨ x = -2 ∨ x = -3)
    (hsteps : streamSteps cum (-2) (-3) (-1) = streamSteps p (-2) (-3) (-1) ++ [1, 0, 1])
    (hcnt : cum.count 1 = p.count 1 + 2) :
    ((cum.count 1 : ℚ) - 1) * u ∈
      npUniqueEvenCount (cumsumQFrom 0
        ((streamSteps cum (-2) (-3) (-1)).map (fun c : ℕ => (c : ℚ) * u))) := by
  set q := streamSteps p (-2) (-3) (-1) with hq
  have hqsum : q.sum = p.count 1 := by
    rw [hq]
    exact streamSteps_sum (-2) (-3) (-1) (by decide) (by decide) (by decide)
      (by decide) (by decide) (by decide) p
      (fun x hx => (hvals x hx).imp id (fun h => h.elim
        (fun h1 => Or.inr (Or.inr h1))
        (fun h2 => h2.elim (fun h1 => Or.inl h1)
          (fun h1 => Or.inr (Or.inl h1)))))
  have h0 : pulseCountFrom u 0 ((q.sum : ℚ) * u + u) q = 0 := by
    apply pulseCountFrom_eq_zero_of_gt u (le_of_lt hu)
    linarith
  have h1 : pulseCountFrom u ((0 : ℚ) + (q.sum : ℚ) * u)
      ((q.sum : ℚ) * u + u) [1, 0, 1] = 1 := by
    simp only [pulseCountFrom]
    norm_num
  have hpulse : pulseCountFrom u 0 ((q.sum : ℚ) * u + u) (q ++ [1, 0, 1]) = 1 := by
    rw [pulseCountFrom_append, h0, h1]
  have hmem : ((q.sum : ℚ) * u + u) ∈ cumsumQFrom 0
      ((q ++ [1, 0, 1]).map (fun c : ℕ => (c : ℚ) * u)) := by
    have hpos : 0 < (cumsumQFrom 0
        ((q ++ [1, 0, 1]).map (fun c : ℕ => (c : ℚ) * u))).count
          ((q.sum : ℚ) * u + u) := by
      rw [count_cumsum_eq_pulse_add_step, hpulse]
      omega
    exact List.count_pos_iff.mp hpos
  have hstep : stepCountFrom u 0 ((q.sum : ℚ) * u + u) (q ++ [1, 0, 1]) = 1 := by
    rcases stepCount_eq_one_of_mem u hu (q ++ [1, 0, 1]) 0 _ hmem with h | h
    · exfalso
      have hq0 : (0 : ℚ) ≤ (q.sum : ℚ) * u :=
        mul_nonneg (Nat.cast_nonneg _) (le_of_lt hu)
      linarith [h]
    · exact h
  have hcount2 : (cumsumQFrom 0
      ((q ++ [1, 0, 1]).map (fun c : ℕ => (c : ℚ) * u))).count
        ((q.sum : ℚ) * u + u) = 2 := by
    rw [count_cumsum_eq_pulse_add_step, hpulse, hstep]
  rw [hsteps]
  have hxv : ((cum.count 1 : ℚ) - 1) * u = (q.sum : ℚ) * u + u := by
    rw [hqsum, hcnt]
    push_cast
    ring
  rw [hxv]
  exact mem_npUniqueEvenCount.mpr ⟨hmem, by rw [hcount2]⟩

/-- The X-stream of the XY pattern always keeps the cumulative position
`(T - 1) · u` as a surviving rabi offset, where `T` is the number of `1`
entries: the closing `[1, -1, 1]` tail makes that position occur exactly
twice (one advancing step and one azimuthal marker pulse). -/
theorem xy_rabi_top_mem (n : ℕ) (hn : 1 ≤ n) (u : ℚ) (hu : 0 < u) :
    (((concatenationXY n).count 1 : ℚ) - 1) * u ∈
      npUniqueEvenCount (cumsumQFrom 0
        ((streamSteps (concatenationXY n) (-2) (-3) (-1)).map
          (fun c : ℕ => (c : ℚ) * u))) := by
  obtain ⟨⟨r, hr⟩, hodd, heven, hcount⟩ := concatenationXY_facts n hn
  have hvals := concatenationXY_values n
  by_cases hpar : n % 2 = 1
  · obtain ⟨p, hp⟩ := hodd hpar
    apply rabi_top_mem_aux u hu p
    · intro x hx
      exact hvals x (by rw [hp]; exact List.mem_append_left _ hx)
    · rw [hp, streamSteps_append]
      rfl
    · rw [hp, List.count_append]
      rfl
  · obtain ⟨p, hp⟩ := heven (by omega)
    apply rabi_top_mem_aux u hu p
    · intro x hx
      exact hvals x (by rw [hp]; exact List.mem_append_left _ hx)
    · rw [hp, streamSteps_append]
      rfl
    · rw [hp, List.count_append]
      rfl

/-- Every surviving detuning offset lies strictly below the top surviving
rabi offset `(T - 1) · u`. -/
theorem xy_detuning_lt_top (d : ℚ) (hd : 0 < d) (n : ℕ) (hn : 1 ≤ n) :
    ∀ z ∈ xyDetuningOffsets d n,
      z < (((concatenationXY n).count 1 : ℚ) - 1) * (d / 2 ^ (2 * n)) := by
  intro z hz
  rw [xyDetuningOffsets, streamOffsets] at hz
  set u := d / 2 ^ (2 * n) with hu'
  have hu : 0 < u := by rw [hu']; positivity
  obtain ⟨hzmem, hzcnt⟩ := mem_npUniqueEvenCount.mp hz
  obtain ⟨⟨r, hr⟩, _, _, hcount⟩ := concatenationXY_facts n hn
  have hzpos : 0 < z := by
    rw [hr] at hzmem
    have hcons : streamSteps (1 :: r) (-2) (-1) (-3) =
        1 :: streamSteps r (-2) (-1) (-3) := rfl
    rw [hcons] at hzmem
    simp only [List.map_cons, cumsumQFrom, List.mem_cons] at hzmem
    rcases hzmem with h | h
    · rw [h]
      simpa using hu
    · have hge := cumsum_mem_ge u (le_of_lt hu) _ _ _ h
      push_cast at hge
      linarith
  rcases stepCount_eq_one_of_mem u hu
      (streamSteps (concatenationXY n) (-2) (-1) (-3)) 0 z hzmem with h0 | hstep
  · exact absurd h0 hzpos.ne'
  · have hcnt2 := hzcnt
    rw [count_cumsum_eq_pulse_add_step, hstep] at hcnt2
    have hpne : pulseCountFrom u 0 z
        (streamSteps (concatenationXY n) (-2) (-1) (-3)) ≠ 0 := by omega
    have hb := xy_detuning_pulse_bound n hn u (le_of_lt hu) 0 z hpne
    linarith

theorem mergeRows_offsets_perm : ∀ (r a : List ℚ),
    ((mergeRows r a).map rowOffset).Perm (r ++ a) := by
  intro r a
  induction r, a using mergeRows.induct with
  | case1 => simp [mergeRows]
  | case2 a as2 ih =>
    simp only [mergeRows, List.map_cons, List.nil_append] at ih ⊢
    exact ih.cons a
  | case3 x rs ih =>
    simp only [mergeRows, List.map_cons, List.append_nil] at ih ⊢
    exact ih.cons x
  | case4 x rs a as2 hlt ih =>
    simp only [mergeRows, if_pos hlt, List.map_cons, List.cons_append]
    exact ih.cons x
  | case5 x rs a as2 hlt ih =>
    simp only [mergeRows, if_neg hlt, List.map_cons]
    exact (ih.cons a).trans List.perm_middle.symm

theorem mergeRows_head_cases : ∀ (r a : List ℚ) (x : ℚ),
    ((mergeRows r a).map rowOffset).head? = some x →
    r.head? = some x ∨ a.head? = some x := by
  intro r a x h
  match r, a with
  | [], [] => simp [mergeRows] at h
  | [], b :: as2 =>
    simp only [mergeRows, List.map_cons, List.head?_cons, Option.some.injEq,
      rowOffset] at h
    exact Or.inr (by rw [List.head?_cons, h])
  | b :: rs, [] =>
    simp only [mergeRows, List.map_cons, List.head?_cons, Option.some.injEq,
      rowOffset] at h
    exact Or.inl (by rw [List.head?_cons, h])
  | b :: rs, c :: as2 =>
    by_cases hc : b < c
    · simp only [mergeRows, if_pos hc, List.map_cons, List.head?_cons,
        Option.some.injEq, rowOffset] at h
      exact Or.inl (by rw [List.head?_cons, h])
    · simp only [mergeRows, if_neg hc, List.map_cons, List.head?_cons,
        Option.some.injEq, rowOffset] at h
      exact Or.inr (by rw [List.head?_cons, h])

theorem mergeRows_sorted : ∀ (r a : List ℚ),
    r.Chain' (· ≤ ·) → a.Chain' (· ≤ ·) →
    ((mergeRows r a).map rowOffset).Chain' (· ≤ ·) := by
  intro r a hr ha
  induction r, a using mergeRows.induct with
  | case1 => simp [mergeRows]
  | case2 a as2 ih =>
    simp only [mergeRows, List.map_cons]
    refine List.chain'_cons'.mpr ⟨?_, ih (List.chain'_nil) (List.Chain'.tail ha)⟩
    intro y hy
    rcases mergeRows_head_cases _ _ _ hy with hcase | hcase
    · simp at hcase
    · exact (List.chain'_cons'.mp ha).1 y hcase
  | case3 x rs ih =>
    simp only [mergeRows, List.map_cons]
    refine List.chain'_cons'.mpr ⟨?_, ih (List.Chain'.tail hr) (List.chain'_nil)⟩
    intro y hy
    rcases mergeRows_head_cases _ _ _ hy with hcase | hcase
    · exact (List.chain'_cons'.mp hr).1 y hcase
    · simp at hcase
  | case4 x rs a as2 hlt ih =>
    simp only [mergeRows, if_pos hlt, List.map_cons]
    refine List.chain'_cons'.mpr ⟨?_, ih (List.Chain'.tail hr) ha⟩
    intro y hy
    rcases mergeRows_head_cases _ _ _ hy with hcase | hcase
    · exact (List.chain'_cons'.mp hr).1 y hcase
    · rw [List.head?_cons, Option.some.injEq] at hcase
      rw [← hcase]
      exact le_of_lt hlt
  | case5 x rs a as2 hlt ih =>
    simp only [mergeRows, if_neg hlt, List.map_cons]
    refine List.chain'_cons'.mpr ⟨?_, ih hr (List.Chain'.tail ha)⟩
    intro y hy
    rcases mergeRows_head_cases _ _ _ hy with hcase | hcase
    · rw [List.head?_cons, Option.some.injEq] at hcase
      rw [← hcase]
      exact le_of_not_lt hlt
    · exact (List.chain'_cons'.mp ha).1 y hcase

theorem insertMergeRows_head_cases : ∀ (rest : List XYRow) (zs : List ℚ) (x : ℚ),
    ((insertMergeRows rest zs).map rowOffset).head? = some x →
    (rest.map rowOffset).head? = some x ∨ zs.head? = some x := by
  intro rest zs x h
  match rest, zs with
  | rest, [] =>
    simp only [insertMergeRows] at h
    exact Or.inl h
  | [], z :: zs' =>
    simp [insertMergeRows] at h
  | t :: rest', z :: zs' =>
    simp only [insertMergeRows] at h
    by_cases hlt : z < rowOffset t
    · rw [if_pos hlt] at h
      simp only [List.map_cons, List.head?_cons, Option.some.injEq, rowOffset] at h
      exact Or.inr (by rw [List.head?_cons, h])
    · rw [if_neg hlt] at h
      simp only [List.map_cons, List.head?_cons, Option.some.injEq] at h
      exact Or.inl (by rw [List.map_cons, List.head?_cons, h])

theorem insertMergeRows_sorted : ∀ (rest : List XYRow) (zs : List ℚ),
    (rest.map rowOffset).Chain' (· ≤ ·) → zs.Chain' (· ≤ ·) →
    ((insertMergeRows rest zs).map rowOffset).Chain' (· ≤ ·) := by
  intro rest zs hr hz
  induction rest, zs using insertMergeRows.induct with
  | case1 rest =>
    simpa only [insertMergeRows] using hr
  | case2 z zs' =>
    simp [insertMergeRows]
  | case3 t rest' z zs' hlt ih =>
    simp only [insertMergeRows, if_pos hlt, List.map_cons]
    refine List.chain'_cons'.mpr ⟨?_, ih hr (List.Chain'.tail hz)⟩
    intro y hy
    rcases insertMergeRows_head_cases _ _ _ hy with hcase | hcase
    · rw [List.map_cons, List.head?_cons, Option.some.injEq] at hcase
      rw [← hcase]
      exact le_of_lt hlt
    · exact (List.chain'_cons'.mp hz).1 y hcase
  | case4 t rest' z zs' hlt ih =>
    have hr2 : List.Chain' (· ≤ ·) (rowOffset t :: rest'.map rowOffset) := by
      simpa only [List.map_cons] using hr
    simp only [insertMergeRows, if_neg hlt, List.map_cons]
    refine List.chain'_cons'.mpr ⟨?_, ih (List.chain'_cons'.mp hr2).2 hz⟩
    intro y hy
    rcases insertMergeRows_head_cases _ _ _ hy with hcase | hcase
    · exact (List.chain'_cons'.mp hr2).1 y hcase
    · rw [List.head?_cons, Option.some.injEq] at hcase
      rw [← hcase]
      exact le_of_not_lt hlt

theorem insertMergeRows_perm : ∀ (rest : List XYRow) (zs : List ℚ),
    zs.Pairwise (· ≤ ·) →
    (∀ z ∈ zs, ∃ t ∈ rest, z < rowOffset t) →
    ((insertMergeRows rest zs).map rowOffset).Perm ((rest.map rowOffset) ++ zs) := by
  intro rest zs hp hwit
  induction rest, zs using insertMergeRows.induct with
  | case1 rest =>
    simp [insertMergeRows]
  | case2 z zs' =>
    obtain ⟨t, ht, _⟩ := hwit z (List.mem_cons_self _ _)
    exact absurd ht (List.not_mem_nil t)
  | case3 t rest' z zs' hlt ih =>
    simp only [insertMergeRows, if_pos hlt, List.map_cons]
    have ih' := ih (List.pairwise_cons.mp hp).2
      (fun y hy => hwit y (List.mem_cons_of_mem _ hy))
    exact (ih'.cons z).trans List.perm_middle.symm
  | case4 t rest' z zs' hlt ih =>
    simp only [insertMergeRows, if_neg hlt, List.map_cons, List.cons_append]
    have hwit' : ∀ y ∈ z :: zs', ∃ s ∈ rest', y < rowOffset s := by
      intro y hy
      obtain ⟨s, hs, hys⟩ := hwit y hy
      rcases List.mem_cons.mp hs with hst | hs'
      · exfalso
        have hzy : z ≤ y := by
          rcases List.mem_cons.mp hy with h1 | h1
          · exact le_of_eq h1.symm
          · exact (List.pairwise_cons.mp hp).1 y h1
        rw [hst] at hys
        exact absurd hys (not_lt.mpr (le_trans (le_of_not_lt hlt) hzy))
      · exact ⟨s, hs', hys⟩
    exact (ih hp hwit').cons _

theorem shiftInsertRows_eq (done rest' : List XYRow) (t : XYRow) (m : ℕ) (z : ℚ) :
    shiftInsertRows (done ++ ((t :: rest') ++ List.replicate (m + 1) zeroRow))
        done.length z
      = done ++ (((z, 0, 0, 1) : ℚ × ℚ × ℚ × ℚ) ::
          ((t :: rest') ++ List.replicate m zeroRow)) := by
  rw [shiftInsertRows, List.take_left, List.drop_left,
    show ((t :: rest') ++ List.replicate (m + 1) zeroRow).dropLast
        = (t :: rest') ++ List.replicate m zeroRow from by
      rw [List.replicate_succ', ← List.append_assoc, dropLast_append_single]]

/-- The detuning insertion loop computes exactly the sorted insertion of
the detuning offsets into the remaining rows, as long as every remaining
detuning offset is exceeded by some remaining row offset (so the loop
never reaches the spare zero rows while offsets remain). -/
theorem insertLoopGo_spec : ∀ (f : ℕ) (zs : List ℚ) (rest done : List XYRow),
    f = rest.length + zs.length →
    zs ≠ [] →
    zs.Pairwise (· ≤ ·) →
    (∀ z ∈ zs, ∃ t ∈ rest, z < rowOffset t) →
    insertLoopGo f done.length
        (done ++ (rest ++ List.replicate zs.length zeroRow)) zs
      = done ++ insertMergeRows rest zs := by
  intro f
  induction f with
  | zero =>
    intro zs rest done hf hne hp hwit
    rcases zs with _ | ⟨z, zs'⟩
    · exact absurd rfl hne
    · rw [List.length_cons] at hf
      omega
  | succ g ih =>
    intro zs rest done hf hne hp hwit
    rcases zs with _ | ⟨z, zs'⟩
    · exact absurd rfl hne
    rcases rest with _ | ⟨t, rest'⟩
    · obtain ⟨s, hs, _⟩ := hwit z (List.mem_cons_self _ _)
      exact absurd hs (List.not_mem_nil s)
    have hidx : (done ++ ((t :: rest') ++
        List.replicate (z :: zs').length zeroRow))[done.length]? = some t := by
      rw [List.getElem?_append_right (le_refl done.length)]
      simp
    simp only [insertLoopGo, hidx]
    by_cases hlt : z < rowOffset t
    · rw [if_pos hlt]
      rcases zs' with _ | ⟨w, zs''⟩
      · dsimp only
        rw [List.length_cons, shiftInsertRows_eq done rest' t _ z]
        simp [insertMergeRows, if_pos hlt]
      · dsimp only
        rw [List.length_cons, shiftInsertRows_eq done rest' t _ z]
        rw [List.append_cons done ((z, 0, 0, 1) : ℚ × ℚ × ℚ × ℚ)]
        have hlen : done.length + 1
            = (done ++ [((z, 0, 0, 1) : ℚ × ℚ × ℚ × ℚ)]).length := by
          simp
        rw [hlen]
        rw [ih (w :: zs'') (t :: rest')
          (done ++ [((z, 0, 0, 1) : ℚ × ℚ × ℚ × ℚ)])
          (by simp only [List.length_cons] at hf ⊢; omega)
          (List.cons_ne_nil _ _)
          (List.pairwise_cons.mp hp).2
          (fun y hy => hwit y (List.mem_cons_of_mem _ hy))]
        rw [show insertMergeRows (t :: rest') (z :: w :: zs'')
            = ((z, 0, 0, 1) : ℚ × ℚ × ℚ × ℚ)
              :: insertMergeRows (t :: rest') (w :: zs'') from by
          rw [insertMergeRows, if_pos hlt]]
        simp
    · rw [if_neg hlt]
      have hwit' : ∀ y ∈ z :: zs', ∃ s ∈ rest', y < rowOffset s := by
        intro y hy
        obtain ⟨s, hs, hys⟩ := hwit y hy
        rcases List.mem_cons.mp hs with hst | hs'
        · exfalso
          have hzy : z ≤ y := by
            rcases List.mem_cons.mp hy with h1 | h1
            · exact le_of_eq h1.symm
            · exact (List.pairwise_cons.mp hp).1 y h1
          rw [hst] at hys
          exact absurd hys (not_lt.mpr (le_trans (le_of_not_lt hlt) hzy))
        · exact ⟨s, hs', hys⟩
      rw [show (t :: rest') ++ List.replicate (z :: zs').length zeroRow
          = t :: (rest' ++ List.replicate (z :: zs').length zeroRow) from
        List.cons_append t rest' _]
      rw [List.append_cons done t]
      have hlen : done.length + 1 = (done ++ [t]).length := by
        simp
      rw [hlen]
      rw [ih (z :: zs') rest' (done ++ [t])
        (by simp only [List.length_cons] at hf ⊢; omega)
        (List.cons_ne_nil _ _) hp hwit']
      rw [show insertMergeRows (t :: rest') (z :: zs')
          = t :: insertMergeRows rest' (z :: zs') from by
        rw [insertMergeRows, if_neg hlt]]
      simp

theorem xy_detuning_witness (d : ℚ) (hd : 0 < d) (n : ℕ) (hn : 1 ≤ n) :
    ∀ z ∈ xyDetuningOffsets d n,
      ∃ t ∈ mergeRows (xyRabiOffsets d n) (xyAzimuthalOffsets d n),
        z < rowOffset t := by
  intro z hz
  have hu : 0 < d / 2 ^ (2 * n) := by positivity
  have htopR : (((concatenationXY n).count 1 : ℚ) - 1) * (d / 2 ^ (2 * n))
      ∈ xyRabiOffsets d n := by
    rw [xyRabiOffsets, streamOffsets]
    exact xy_rabi_top_mem n hn (d / 2 ^ (2 * n)) hu
  have htopM : (((concatenationXY n).count 1 : ℚ) - 1) * (d / 2 ^ (2 * n))
      ∈ (mergeRows (xyRabiOffsets d n) (xyAzimuthalOffsets d n)).map rowOffset :=
    (mergeRows_offsets_perm _ _).mem_iff.mpr (List.mem_append_left _ htopR)
  obtain ⟨t, ht, hofft⟩ := List.mem_map.mp htopM
  refine ⟨t, ht, ?_⟩
  rw [hofft]
  exact xy_detuning_lt_top d hd n hn z hz

theorem xyFinalRows_eq (d : ℚ) (hd : 0 < d) (n : ℕ) (hn : 1 ≤ n) :
    xyFinalRows d n = insertMergeRows
      (mergeRows (xyRabiOffsets d n) (xyAzimuthalOffsets d n))
      (xyDetuningOffsets d n) := by
  rw [xyFinalRows, xyMergedRows, insertDetuning]
  by_cases hz : (xyDetuningOffsets d n).isEmpty
  · rw [if_pos hz]
    have hznil : xyDetuningOffsets d n = [] := List.isEmpty_iff.mp hz
    rw [hznil]
    simp only [insertMergeRows, List.length_nil, List.replicate, List.append_nil]
  · rw [if_neg hz]
    have hzne : xyDetuningOffsets d n ≠ [] := by
      intro hcon
      rw [hcon] at hz
      exact hz rfl
    have hpair : (xyDetuningOffsets d n).Pairwise (· ≤ ·) := by
      have hchain : (xyDetuningOffsets d n).Chain' (· < ·) :=
        npUniqueEvenCount_chain_lt _
      exact (List.chain'_iff_pairwise.mp hchain).imp (fun h => le_of_lt h)
    have hspec := insertLoopGo_spec
      ((mergeRows (xyRabiOffsets d n) (xyAzimuthalOffsets d n)).length
        + (xyDetuningOffsets d n).length)
      (xyDetuningOffsets d n)
      (mergeRows (xyRabiOffsets d n) (xyAzimuthalOffsets d n))
      [] rfl hzne hpair (xy_detuning_witness d hd n hn)
    simp only [List.length_nil, List.nil_append] at hspec
    rw [show (mergeRows (xyRabiOffsets d n) (xyAzimuthalOffsets d n)
        ++ List.replicate (xyDetuningOffsets d n).length zeroRow).length
        = (mergeRows (xyRabiOffsets d n) (xyAzimuthalOffsets d n)).length
          + (xyDetuningOffsets d n).length from by
      rw [List.length_append, List.length_replicate]]
    exact hspec

/-- C1: in the XY-concatenated generator, for every duration above zero and
every concatenation order at least 1, the detuning-insertion step is
position-exact: the final offsets array is sorted, and it holds exactly the
merged rabi/azimuthal offsets together with the detuning offsets — every
previously merged offset is preserved exactly once and every detuning
offset appears exactly once (a permutation, so nothing is lost or
duplicated by the right-shift insertion). -/
theorem c1_insertion_exact (d : ℚ) (n : ℕ) (hd : 0 < d) (hn : 1 ≤ n) :
    ((xyFinalRows d n).map rowOffset).Chain' (· ≤ ·) ∧
    ((xyFinalRows d n).map rowOffset).Perm
      (((mergeRows (xyRabiOffsets d n) (xyAzimuthalOffsets d n)).map rowOffset)
        ++ xyDetuningOffsets d n) := by
  have hchainR : (xyRabiOffsets d n).Chain' (· < ·) := npUniqueEvenCount_chain_lt _
  have hchainA : (xyAzimuthalOffsets d n).Chain' (· < ·) :=
    npUniqueEvenCount_chain_lt _
  have hchainZ : (xyDetuningOffsets d n).Chain' (· < ·) :=
    npUniqueEvenCount_chain_lt _
  have hpair : (xyDetuningOffsets d n).Pairwise (· ≤ ·) :=
    (List.chain'_iff_pairwise.mp hchainZ).imp (fun h => le_of_lt h)
  rw [xyFinalRows_eq d hd n hn]
  constructor
  · exact insertMergeRows_sorted _ _
      (mergeRows_sorted _ _ (hchainR.imp (fun _ _ h => le_of_lt h))
        (hchainA.imp (fun _ _ h => le_of_lt h)))
      (hchainZ.imp (fun _ _ h => le_of_lt h))
  · exact insertMergeRows_perm _ _ hpair (xy_detuning_witness d hd n hn)

/-- Witness: the claim instantiated at duration 1 and concatenation
order 1. -/
theorem c1_insertion_exact_witness :
    ((xyFinalRows 1 1).map rowOffset).Chain' (· ≤ ·) ∧
    ((xyFinalRows 1 1).map rowOffset).Perm
      (((mergeRows (xyRabiOffsets 1 1) (xyAzimuthalOffsets 1 1)).map rowOffset)
        ++ xyDetuningOffsets 1 1) :=
  c1_insertion_exact 1 1 (by norm_num) (by norm_num)

end OpenControls
